import Mathlib

/-!
Verification of the fiber reconciler in `vertex.js` (§2 of the source,
lines 578–1110): reconciliation, commit, hooks, child flattening and the
cooperative scheduler.  JavaScript values that the code only ever compares
with `===` (prop values, dependency-array entries, dispatch actions) are
modelled as `Nat` atoms; DOM nodes are modelled by numeric identifiers and
a parent's ordered child list; strings keep their `String` type.  Mutable
linked fiber structures become explicit lists/trees with state threaded
through functions; `for` loops become structural recursion in source
order.
-/

namespace Vertex

/-- Effect tags: `PLACEMENT = 'P'`, `UPDATE = 'U'`, `DELETION = 'D'`
(vertex.js lines 585–587). -/
inductive Tag where
  | placement
  | update
  | deletion
deriving DecidableEq, Repr

/-- A child tree description at one level, as handed to `reconcileChildren`:
`type`, `props.key` and the remaining (non-children) props.  Prop values are
`Nat` atoms since the reconciler only compares them with `===`. -/
structure Elem where
  type : String
  key : Option String
  attrs : List (String × Nat)
deriving DecidableEq, Repr

/-- A previously committed child fiber, as found on the alternate chain:
its identity `fid`, its `type`, its `props.key`, its remaining props and
the id of the DOM node it owns. -/
structure OldFiber where
  fid : Nat
  type : String
  key : Option String
  attrs : List (String × Nat)
  dom : Nat
deriving DecidableEq, Repr

/-- A fiber produced by `reconcileChildren` (vertex.js lines 790–803):
either an Update reusing the old fiber's `dom` with `alternate` set to the
old fiber, or a Placement with no `dom` and no `alternate`. -/
structure NewFiber where
  type : String
  key : Option String
  attrs : List (String × Nat)
  dom : Option Nat
  alternate : Option OldFiber
  effectTag : Tag
deriving DecidableEq, Repr

/-- JS object assignment `m[k] = v`: overwrite in place when the key is
already present (keeping its position in for-in order), append otherwise. -/
def mapSet (m : List (String × OldFiber)) (k : String) (v : OldFiber) :
    List (String × OldFiber) :=
  match m with
  | [] => [(k, v)]
  | (k0, v0) :: rest =>
      if k0 = k then (k, v) :: rest else (k0, v0) :: mapSet rest k v

/-- JS object lookup `m[k]`. -/
def mapGet (m : List (String × OldFiber)) (k : String) : Option OldFiber :=
  match m with
  | [] => none
  | (k0, v0) :: rest => if k0 = k then some v0 else mapGet rest k

/-- JS `delete m[k]`. -/
def mapDel (m : List (String × OldFiber)) (k : String) :
    List (String × OldFiber) :=
  match m with
  | [] => []
  | (k0, v0) :: rest =>
      if k0 = k then rest else (k0, v0) :: mapDel rest k

/-- The single scan over the old child chain that builds the key map and
the positional list (vertex.js lines 755–768), threading both accumulators
front-to-back: a keyed old fiber goes into the key map (a later duplicate
key overwrites the earlier entry), an unkeyed one is pushed onto `byPos`. -/
def buildMapsGo (km : List (String × OldFiber)) (bp : List OldFiber) :
    List OldFiber → List (String × OldFiber) × List OldFiber
  | [] => (km, bp)
  | f :: rest =>
      match f.key with
      | some k => buildMapsGo (mapSet km k f) bp rest
      | none => buildMapsGo km (bp ++ [f]) rest

/-- `while (scan) { ... }` scan of vertex.js lines 758–768 started on the
whole old child chain. -/
def buildMaps (olds : List OldFiber) : List (String × OldFiber) × List OldFiber :=
  buildMapsGo [] [] olds

/-- The body of the `for` loop of vertex.js lines 773–808 plus the
trailing clean-up of lines 810–823, as structural recursion over the new
descriptions.  State: the (mutated) key map, the immutable `byPos` array
with the `posIdx` cursor.  Returns the produced fiber chain in
description order and the fibers marked `DELETION`, in the order they are
pushed onto `deletions` (loop-time deletions first, then the remaining
positional entries, then the remaining key-map entries). -/
def reconGo (byPos : List OldFiber) (keyMap : List (String × OldFiber))
    (posIdx : Nat) : List Elem → List NewFiber × List OldFiber
  | [] => ([], byPos.drop posIdx ++ keyMap.map (fun p => p.2))
  | el :: rest =>
      let look : Option OldFiber × List (String × OldFiber) × Nat :=
        match el.key with
        | some k =>
            match mapGet keyMap k with
            | some f => (some f, mapDel keyMap k, posIdx)
            | none => (none, keyMap, posIdx)
        | none => (byPos[posIdx]?, keyMap, posIdx + 1)
      let old := look.1
      let sameType : Bool :=
        match old with
        | some o => o.type = el.type
        | none => false
      let newFiber : NewFiber :=
        match old, sameType with
        | some o, true =>
            { type := o.type, key := el.key, attrs := el.attrs,
              dom := some o.dom, alternate := some o, effectTag := Tag.update }
        | _, _ =>
            { type := el.type, key := el.key, attrs := el.attrs,
              dom := none, alternate := none, effectTag := Tag.placement }
      let delHere : List OldFiber :=
        match old, sameType with
        | some o, false => [o]
        | _, _ => []
      let r := reconGo byPos look.2.1 look.2.2 rest
      (newFiber :: r.1, delHere ++ r.2)

/-- `reconcileChildren` (vertex.js lines 753–824) on one parent: build the
lookup structures, run the loop, collect the chain and the deletions. -/
def reconcileChildren (olds : List OldFiber) (els : List Elem) :
    List NewFiber × List OldFiber :=
  let m := buildMaps olds
  reconGo m.2 m.1 0 els

/-! ### Prop diff (`patchDom`, vertex.js lines 691–749) -/

/-- `isEventProp` (vertex.js lines 692–694): first two characters are
`'o'` and `'n'` and the length exceeds 2. -/
def isEventProp (k : String) : Bool :=
  match k.data with
  | 'o' :: 'n' :: _ :: _ => true
  | _ => false

/-- `isRealProp` (vertex.js line 697). -/
def isRealProp (k : String) : Bool :=
  k ≠ "children" && k ≠ "ref" && !isEventProp k

/-- One mutation `patchDom` performs on a node's real (non-event,
non-children, non-ref) properties. -/
inductive PatchOp where
  | clearProp (k : String)
  | setProp (k : String) (v : Nat)
deriving DecidableEq, Repr

/-- Pass 1 of `patchDom` (vertex.js lines 723–735) restricted to real
props: every prev key absent from next is reset to the empty value. -/
def patchPassOne (next : List (String × Nat)) :
    List (String × Nat) → List PatchOp
  | [] => []
  | (k, _) :: rest =>
      if isRealProp k && (next.lookup k).isNone
      then PatchOp.clearProp k :: patchPassOne next rest
      else patchPassOne next rest

/-- Pass 2 of `patchDom` (vertex.js lines 737–748) restricted to real
props: every next key whose value differs from prev's (`prev[k] === next[k]`
skips) is written. -/
def patchPassTwo (prev : List (String × Nat)) :
    List (String × Nat) → List PatchOp
  | [] => []
  | (k, v) :: rest =>
      if isRealProp k && prev.lookup k ≠ some v
      then PatchOp.setProp k v :: patchPassTwo prev rest
      else patchPassTwo prev rest

/-- The property mutations `patchDom(dom, prev, next)` applies to real
props, in source order (pass 1 then pass 2). -/
def patchDom (prev next : List (String × Nat)) : List PatchOp :=
  patchPassOne next prev ++ patchPassTwo prev next

/-! ### Work phase and commit for one parent's child list

`updateHostComponent` (vertex.js lines 656–659) gives a fiber a fresh DOM
node exactly when it has none (Placement fibers come out of reconciliation
with `dom: null`); `commitWork` (lines 871–902) appends a Placement
fiber's node to the owning parent, patches an Update fiber's node in
place, and `commitDeletion`/`removeFiberDom` (lines 904–919) detaches a
deleted fiber's node.  For a single parent we model the parent's DOM as
its ordered child-id list; `createDom` allocates fresh ids from a
counter. -/

/-- A fiber after the work phase: Placement fibers have been given a
freshly created DOM node, Update fibers keep the reused one. -/
structure WorkedFiber where
  type : String
  key : Option String
  attrs : List (String × Nat)
  dom : Nat
  alternate : Option OldFiber
  effectTag : Tag
deriving DecidableEq, Repr

/-- `if (!fiber.dom) fiber.dom = createDom(fiber)` over the new chain:
returns the worked chain and the next free DOM id (so the number of
created nodes is the counter difference). -/
def workChain (counter : Nat) : List NewFiber → List WorkedFiber × Nat
  | [] => ([], counter)
  | f :: rest =>
      match f.dom with
      | some d =>
          let r := workChain counter rest
          (⟨f.type, f.key, f.attrs, d, f.alternate, f.effectTag⟩ :: r.1, r.2)
      | none =>
          let r := workChain (counter + 1) rest
          (⟨f.type, f.key, f.attrs, counter, f.alternate, f.effectTag⟩ :: r.1, r.2)

/-- The deletion phase of `commitRoot` (vertex.js line 846) on one
parent: each deleted fiber's node is removed from the parent's child
list. -/
def commitDeletions (dels : List OldFiber) (kids : List Nat) : List Nat :=
  match dels with
  | [] => kids
  | d :: rest => commitDeletions rest (kids.erase d.dom)

/-- The Placement/Update walk of `commitWork` over one parent's new child
chain, in chain order: a Placement appends its node as the parent's last
child (`parentDom.appendChild`, which moves the node if already present);
an Update patches its node in place and does not touch the child list. -/
def commitChain (kids : List Nat) : List WorkedFiber → List Nat
  | [] => kids
  | f :: rest =>
      match f.effectTag with
      | Tag.placement => commitChain (kids.erase f.dom ++ [f.dom]) rest
      | _ => commitChain kids rest

/-- One full pass over a single parent: reconcile the old committed child
fibers against the new descriptions, run the work phase from DOM-id
counter `c`, and commit against the parent's current child-id list.
Returns (worked chain, deletions, created-node count, new child list). -/
def renderPass (olds : List OldFiber) (els : List Elem) (c : Nat)
    (kids : List Nat) : List WorkedFiber × List OldFiber × Nat × List Nat :=
  let r := reconcileChildren olds els
  let w := workChain c r.1
  let kids1 := commitDeletions r.2 kids
  (w.1, r.2, w.2 - c, commitChain kids1 w.1)

/-- A committed worked fiber seen as the old fiber of the next pass (its
identity is its DOM id, which is unique). -/
def toOldFiber (f : WorkedFiber) : OldFiber :=
  ⟨f.dom, f.type, f.key, f.attrs, f.dom⟩

/-! ### Hooks: `useReducer`/`useState` (vertex.js lines 985–1024),
`useEffect` (1026–1044), `useMemo` (1046–1058) -/

/-- An action passed to a state-hook dispatch: `useState`'s reducer
(vertex.js lines 987–989) applies a function action to the state and
replaces the state with a plain action. -/
inductive RAction where
  | fnAct (f : Nat → Nat)
  | valAct (v : Nat)

/-- The reducer `useState` builds (vertex.js lines 987–989). -/
def stateReducer (s : Nat) (a : RAction) : Nat :=
  match a with
  | RAction.fnAct f => f s
  | RAction.valAct v => v

/-- The stable cell of a state/reducer hook: the pending action queue
(the dispatch handle itself is a closure over this cell and needs no
separate model). -/
structure RCell (α : Type) where
  queue : List α

/-- A state/reducer hook record `{ state, _cell }` (vertex.js line 1021). -/
structure RHook (α : Type) where
  state : Nat
  cell : RCell α

/-- The drain loop of `useReducer` (vertex.js lines 1008–1010): apply
every queued action to the reducer in queue order. -/
def drainQueue {α : Type} (reducer : Nat → α → Nat) (s : Nat) :
    List α → Nat
  | [] => s
  | a :: rest => drainQueue reducer (reducer s a) rest

/-- One render of a `useReducer` cell (vertex.js lines 994–1024): the
previous hook (from `alternate.hooks[hookIdx]`) or the initial value on
first render, the queue drained through the reducer, then cleared. -/
def useReducer {α : Type} (reducer : Nat → α → Nat) (initial : Nat)
    (oldHook : Option (RHook α)) : RHook α :=
  let cell := match oldHook with
    | some h => h.cell
    | none => ⟨[]⟩
  let state0 := match oldHook with
    | some h => h.state
    | none => initial
  let state := drainQueue reducer state0 cell.queue
  ⟨state, ⟨[]⟩⟩

/-- `useState` (vertex.js lines 985–992): `useReducer` with the
function-or-value reducer. -/
def useState (initial : Nat) (oldHook : Option (RHook RAction)) :
    RHook RAction :=
  useReducer stateReducer initial oldHook

/-- The dispatch handle (vertex.js lines 1015–1018): push the action onto
the stable cell's queue (then `scheduleUpdate`, modelled separately). -/
def dispatch {α : Type} (cell : RCell α) (a : α) : RCell α :=
  ⟨cell.queue ++ [a]⟩

/-- The JS read `oldDeps && oldDeps[i]` used in the dependency
comparison: `none` both when the old deps array is absent and when the
index is out of range. -/
def jsIndex (oldDeps : Option (List Nat)) (i : Nat) : Option Nat :=
  match oldDeps with
  | none => none
  | some l => l[i]?

/-- `deps.some(function (d, i) { return d !== (oldHook.deps && oldHook.deps[i]); })`
(vertex.js line 1030 and 1050). -/
def anyDepDiffers (oldDeps : Option (List Nat)) (i : Nat) :
    List Nat → Bool
  | [] => false
  | d :: rest => decide (jsIndex oldDeps i ≠ some d) || anyDepDiffers oldDeps (i + 1) rest

/-- The `depsChanged` condition shared by `useEffect` and `useMemo`
(vertex.js lines 1028–1030, 1048–1050): no old hook, or no new deps
array, or some element differs.  `oldHook` carries the old deps array
when present. -/
def depsChanged (oldHook : Option (Option (List Nat)))
    (deps : Option (List Nat)) : Bool :=
  match oldHook with
  | none => true
  | some oldDeps =>
      match deps with
      | none => true
      | some ds => anyDepDiffers oldDeps 0 ds

/-- An effect hook record `{ deps, cleanup }` (vertex.js line 1032);
cleanup handles are atoms. -/
structure EffHook where
  deps : Option (List Nat)
  cleanup : Option Nat
deriving DecidableEq, Repr

/-- An entry of the per-fiber `_pendingEffects` list
(vertex.js lines 1036–1040); the effect body is an atom. -/
structure EffItem where
  effectId : Nat
  oldCleanup : Option Nat
deriving DecidableEq, Repr

/-- One render of a `useEffect` cell (vertex.js lines 1026–1044): build
the new hook carrying the old cleanup forward, and iff the deps changed
push `{ effect, oldCleanup, hook }` onto the fiber's pending list. -/
def useEffect (effectId : Nat) (deps : Option (List Nat))
    (oldHook : Option EffHook) (pending : List EffItem) :
    EffHook × List EffItem :=
  let changed := depsChanged (oldHook.map (fun h => h.deps)) deps
  let oldCleanup := match oldHook with
    | some h => h.cleanup
    | none => none
  let hook : EffHook := ⟨deps, oldCleanup⟩
  if changed then (hook, pending ++ [⟨effectId, oldCleanup⟩])
  else (hook, pending)

/-- A memo hook record `{ value, deps }` (vertex.js lines 1052–1055). -/
structure MemoHook where
  value : Nat
  deps : Option (List Nat)
deriving DecidableEq, Repr

/-- One render of a `useMemo` cell (vertex.js lines 1046–1058):
re-invoke the factory iff the deps changed, else carry the cached value
forward.  Returns the hook and whether the factory was invoked. -/
def useMemo (factory : Unit → Nat) (deps : Option (List Nat))
    (oldHook : Option MemoHook) : MemoHook × Bool :=
  let changed := depsChanged (oldHook.map (fun h => h.deps)) deps
  if changed then (⟨factory (), deps⟩, true)
  else (⟨(match oldHook with | some h => h.value | none => 0), deps⟩, false)

/-! ### Scheduler and update trigger (vertex.js lines 589–615, 941–947)

The module-level state: `nextUnit`, `wipRoot`, `curRoot`, `deletions`,
and the `scheduled` dedup flag.  Roots and units are abstract ids; the
host's `ric` callback queue is modelled by a count of pending callbacks;
the remaining units of the current pass by a list the work loop consumes
from the front. -/

structure Globals where
  nextUnit : List Nat
  wipRoot : Option Nat
  curRoot : Option Nat
  deletions : List Nat
  scheduled : Bool
  pendingCallbacks : Nat
deriving DecidableEq, Repr

/-- `scheduleWork` (vertex.js lines 602–606): a no-op when a callback is
already in flight, otherwise set the flag and arm one host callback. -/
def scheduleWork (g : Globals) : Globals :=
  if g.scheduled then g
  else { g with scheduled := true, pendingCallbacks := g.pendingCallbacks + 1 }

/-- `workLoop` (vertex.js lines 608–615) on callback fire: clear the
flag, consume the fired callback, perform units while the deadline allows
(`budget` many), commit when the walk finished with a live `wipRoot`, and
re-arm the scheduler iff units remain. -/
def workLoop (budget : Nat) (g : Globals) : Globals :=
  let g1 := { g with scheduled := false,
                     pendingCallbacks := g.pendingCallbacks - 1 }
  let g2 := { g1 with nextUnit := g1.nextUnit.drop budget }
  let g3 :=
    if g2.nextUnit.isEmpty then
      match g2.wipRoot with
      | some r => { g2 with curRoot := some r, wipRoot := none }
      | none => g2
    else g2
  if g3.nextUnit.isEmpty then g3 else scheduleWork g3

/-- `scheduleUpdate` (vertex.js lines 941–947): bail out when nothing has
been committed yet; otherwise build a fresh work-in-progress root over the
current root, reset the cursor and the deletions list, and arm the
scheduler.  The fresh root is an abstract id derived from the current
root. -/
def scheduleUpdate (g : Globals) : Globals :=
  match g.curRoot with
  | none => g
  | some r =>
      scheduleWork { g with wipRoot := some (r + 1), nextUnit := [r + 1],
                            deletions := [] }

/-- A dispatch-handle invocation (vertex.js lines 1015–1018) as seen by
the whole system: append the action to the cell's queue, then
`scheduleUpdate`. -/
def dispatchGlobal {α : Type} (g : Globals) (cell : RCell α) (a : α) :
    Globals × RCell α :=
  (scheduleUpdate g, dispatch cell a)

/-! ### Child flattening (`flattenChildren`, vertex.js lines 661–674;
`flatPush`/`createElement`, lines 952–970) -/

/-- A JS value appearing in a child position: `null`, `undefined`,
`false`, a nested array, an element description (an object, identified by
an id), or any other primitive (string/number/`true`), identified by its
`String(...)` image. -/
inductive ChildVal where
  | vnull
  | vundef
  | vfalse
  | varr (items : List ChildVal)
  | vdesc (d : Nat)
  | vprim (s : String)

/-- A value in a flattened child list: an element description passed
through, a raw primitive passed through unchanged (`flattenChildren`), or
a `TEXT_ELEMENT` description made by `createTextElement`
(vertex.js lines 972–974). -/
inductive ChildOut where
  | outDesc (d : Nat)
  | outRaw (s : String)
  | outText (s : String)
deriving DecidableEq, Repr

/-- The loop of `flattenChildren` (vertex.js lines 663–672) over the
wrapped array: nullish and `false` skipped, nested arrays spliced in via
the recursive call, everything else pushed as-is (no coercion). -/
def flattenList : List ChildVal → List ChildOut
  | [] => []
  | c :: rest =>
      match c with
      | ChildVal.vnull => flattenList rest
      | ChildVal.vundef => flattenList rest
      | ChildVal.vfalse => flattenList rest
      | ChildVal.varr items => flattenList items ++ flattenList rest
      | ChildVal.vdesc d => ChildOut.outDesc d :: flattenList rest
      | ChildVal.vprim s => ChildOut.outRaw s :: flattenList rest

/-- `flattenChildren(output)` (vertex.js lines 661–674): wrap a non-array
output into a one-element array, then run the loop. -/
def flattenChildren (output : ChildVal) : List ChildOut :=
  match output with
  | ChildVal.varr items => flattenList items
  | v => flattenList [v]

/-- `flatPush(out, arr)` (vertex.js lines 952–959): nullish and `false`
skipped, nested arrays recursed into, any other non-object coerced via
`createTextElement(String(c))`, objects pushed as-is; appends onto `out`. -/
def flatPush (out : List ChildOut) : List ChildVal → List ChildOut
  | [] => out
  | c :: rest =>
      match c with
      | ChildVal.vnull => flatPush out rest
      | ChildVal.vundef => flatPush out rest
      | ChildVal.vfalse => flatPush out rest
      | ChildVal.varr items => flatPush (flatPush out items) rest
      | ChildVal.vdesc d => flatPush (out ++ [ChildOut.outDesc d]) rest
      | ChildVal.vprim s => flatPush (out ++ [ChildOut.outText s]) rest

/-- The child list `createElement` builds from its variadic child
arguments (vertex.js lines 961–970); the per-argument checks are the same
as `flatPush`'s. -/
def createElementChildren (args : List ChildVal) : List ChildOut :=
  flatPush [] args

mutual

/-- Spec-side normalisation of one child value, written from the spec's
flattening rule: nullish/`false` dropped, arrays spliced recursively,
descriptions kept; a primitive becomes a text description when `coerce`
is set and is passed through raw otherwise. -/
def normSpec (coerce : Bool) : ChildVal → List ChildOut
  | ChildVal.vnull => []
  | ChildVal.vundef => []
  | ChildVal.vfalse => []
  | ChildVal.varr items => normSpecList coerce items
  | ChildVal.vdesc d => [ChildOut.outDesc d]
  | ChildVal.vprim s =>
      [if coerce then ChildOut.outText s else ChildOut.outRaw s]

/-- Spec-side normalisation of a child list. -/
def normSpecList (coerce : Bool) : List ChildVal → List ChildOut
  | [] => []
  | c :: rest => normSpec coerce c ++ normSpecList coerce rest

end

/-! ### Deletion of a subtree (`commitDeletion`, `removeFiberDom`,
`cleanupEffectTree`, vertex.js lines 904–937) -/

/-- A fiber of a deleted subtree: the DOM node it owns (if any), its hook
cells' cleanup handles (`none` for hooks without one), and its children
in sibling order. -/
inductive DFiber where
  | node (dom : Option Nat) (hooks : List (Option Nat))
      (children : List DFiber)

/-- `removeFiberDom`'s walk (vertex.js lines 910–919): down the
first-child chain to the first fiber owning a DOM node. -/
def removeFiberDom : DFiber → Option Nat
  | DFiber.node dom _ children =>
      match dom with
      | some d => some d
      | none =>
          match children with
          | [] => none
          | c :: _ => removeFiberDom c

/-- `cleanupEffectTree` (vertex.js lines 924–937): walk the first-child
chain, invoking every present cleanup handle at each level; siblings are
not followed.  Returns the invoked handles in invocation order. -/
def cleanupEffectTree : DFiber → List Nat
  | DFiber.node _ hooks children =>
      hooks.filterMap id ++
        (match children with
         | [] => []
         | c :: _ => cleanupEffectTree c)

/-- The cleanup handles present on one fiber's hooks. -/
def hookCleanups : DFiber → List Nat
  | DFiber.node _ hooks _ => hooks.filterMap id

/-- The fiber's own DOM node. -/
def domOf : DFiber → Option Nat
  | DFiber.node dom _ _ => dom

/-- The first-child chain of a fiber: itself, then its first child's
chain. -/
def firstChildChain : DFiber → List DFiber
  | DFiber.node dom hooks children =>
      DFiber.node dom hooks children ::
        (match children with
         | [] => []
         | c :: _ => firstChildChain c)

mutual

/-- Every cleanup handle present anywhere in the subtree. -/
def subtreeCleanups : DFiber → List Nat
  | DFiber.node _ hooks children =>
      hooks.filterMap id ++ subtreeCleanupsList children

/-- Every cleanup handle present in a forest. -/
def subtreeCleanupsList : List DFiber → List Nat
  | [] => []
  | c :: rest => subtreeCleanups c ++ subtreeCleanupsList rest

end

/-! ### Commit protocol as an event trace (`commitRoot`/`commitWork`,
vertex.js lines 844–902)

`commitWork`'s explicit stack (sibling pushed before child, child popped
first) walks the child/sibling tree in pre-order; we embed that walk as
structural recursion over a tree whose node carries its children in
sibling order.  The trace records every externally visible action in
execution order. -/

/-- A fiber of the committed walk: the DOM node it owns (if any; `none`
for function-component fibers), its effect tag, its hook cells' cleanup
handles (used when the fiber is deleted), the `_pendingEffects` entries
accumulated on it during the render pass, and its children. -/
inductive CFiber where
  | node (dom : Option Nat) (tag : Tag) (hooks : List (Option Nat))
      (effs : List EffItem) (children : List CFiber)

/-- An externally visible action of the commit pass. -/
inductive CEvent where
  | removeNode (dom : Nat)
  | appendNode (parent : Nat) (dom : Nat)
  | patchNode (dom : Nat)
  | runCleanup (c : Nat)
  | runEffect (e : Nat)
  | swapRoots
deriving DecidableEq, Repr

/-- `removeFiberDom`'s first-child-chain walk on a commit fiber. -/
def removeFiberDomC : CFiber → Option Nat
  | CFiber.node dom _ _ _ children =>
      match dom with
      | some d => some d
      | none =>
          match children with
          | [] => none
          | c :: _ => removeFiberDomC c

/-- `cleanupEffectTree`'s first-child-chain walk on a commit fiber,
as `runCleanup` events. -/
def cleanupEventsC : CFiber → List CEvent
  | CFiber.node _ _ hooks _ children =>
      (hooks.filterMap id).map CEvent.runCleanup ++
        (match children with
         | [] => []
         | c :: _ => cleanupEventsC c)

/-- `commitDeletion` (vertex.js lines 904–907): detach the first owned
node from the parent (when the parent owns a node), then run the
first-child-chain cleanups. -/
def commitDeletionEv (f : CFiber) (parentDom : Option Nat) : List CEvent :=
  (match removeFiberDomC f, parentDom with
   | some d, some _ => [CEvent.removeNode d]
   | _, _ => []) ++ cleanupEventsC f

mutual

/-- `commitWork(startFiber, startParentDom)` (vertex.js lines 871–902) as
the list of events it fires and the pending-effect entries it drains, in
execution order: mutate (append on Placement with a node and a live
parent, patch on Update with a node, delete on Deletion — which handles
the whole subtree and skips the children), then flush the fiber's pending
effects, then walk the children with the owning parent switched to this
fiber's node when it has one. -/
def commitWorkEv (f : CFiber) (parentDom : Option Nat) :
    List CEvent × List EffItem :=
  match f with
  | CFiber.node dom tag hooks effs children =>
      match tag with
      | Tag.deletion =>
          (commitDeletionEv (CFiber.node dom tag hooks effs children) parentDom,
           effs)
      | Tag.placement =>
          let own : List CEvent :=
            match dom, parentDom with
            | some d, some p => [CEvent.appendNode p d]
            | _, _ => []
          let childParent : Option Nat :=
            match dom with
            | some d => some d
            | none => parentDom
          let r := commitWorkListEv children childParent
          (own ++ r.1, effs ++ r.2)
      | Tag.update =>
          let own : List CEvent :=
            match dom with
            | some d => [CEvent.patchNode d]
            | none => []
          let childParent : Option Nat :=
            match dom with
            | some d => some d
            | none => parentDom
          let r := commitWorkListEv children childParent
          (own ++ r.1, effs ++ r.2)

/-- The walk over a sibling list, left to right. -/
def commitWorkListEv (fs : List CFiber) (parentDom : Option Nat) :
    List CEvent × List EffItem :=
  match fs with
  | [] => ([], [])
  | f :: rest =>
      let a := commitWorkEv f parentDom
      let b := commitWorkListEv rest parentDom
      (a.1 ++ b.1, a.2 ++ b.2)

end

/-- A pending deletion as `commitRoot` sees it: the detached fiber plus
the DOM nodes owned by its ancestors, nearest first (`nearestDom`,
vertex.js lines 829–833, walks up to the first ancestor owning a node). -/
structure DeletionEntry where
  fiber : CFiber
  ancestorDoms : List (Option Nat)

/-- `nearestDom` (vertex.js lines 829–833). -/
def nearestDom : List (Option Nat) → Option Nat
  | [] => none
  | some d :: _ => some d
  | none :: rest => nearestDom rest

/-- The deletion phase of `commitRoot` (vertex.js line 846), left to
right over the pending-deletions list. -/
def commitDeletionsPhase : List DeletionEntry → List CEvent × List EffItem
  | [] => ([], [])
  | e :: rest =>
      let a := commitWorkEv e.fiber (nearestDom e.ancestorDoms)
      let b := commitDeletionsPhase rest
      (a.1 ++ b.1, a.2 ++ b.2)

/-- The effect flush of `commitRoot` (vertex.js lines 852–858): for each
queued entry, run its previous cleanup handle when there is one, then run
the effect body. -/
def effectPhase : List EffItem → List CEvent
  | [] => []
  | it :: rest =>
      (match it.oldCleanup with
       | some c => [CEvent.runCleanup c]
       | none => []) ++ CEvent.runEffect it.effectId :: effectPhase rest

/-- The main-tree walk of `commitRoot` (vertex.js line 847):
`if (wipRoot.child) commitWork(wipRoot.child, wipRoot.dom)`. -/
def commitWalk (rootChild : Option CFiber) (rootDom : Nat) :
    List CEvent × List EffItem :=
  match rootChild with
  | some c => commitWorkEv c (some rootDom)
  | none => ([], [])

/-- The write-back of vertex.js line 857: after each effect body runs,
its returned cleanup handle (or none) is stored onto the hook cell;
`effRet` gives each effect body's returned handle. -/
def effectPhaseHooks (effRet : Nat → Option Nat) :
    List EffItem → List (Option Nat)
  | [] => []
  | it :: rest => effRet it.effectId :: effectPhaseHooks effRet rest

/-- `commitRoot` (vertex.js lines 844–859) as its full event trace:
pending deletions first (each against its own nearest live parent), then
the walk of the new tree from the root's child against the root
container, then the root swap (`curRoot = wipRoot`), then the queued
effects in queue order. -/
def commitRoot (dels : List DeletionEntry) (rootChild : Option CFiber)
    (rootDom : Nat) : List CEvent :=
  let dp := commitDeletionsPhase dels
  let wp := commitWalk rootChild rootDom
  dp.1 ++ wp.1 ++ [CEvent.swapRoots] ++ effectPhase (dp.2 ++ wp.2)

/-- The fiber's effect tag. -/
def tagOf : CFiber → Tag
  | CFiber.node _ tag _ _ _ => tag

/-- Event classifiers used to state the commit ordering. -/
def isRemove : CEvent → Bool
  | CEvent.removeNode _ => true
  | _ => false

def isApplyTag : CEvent → Bool
  | CEvent.appendNode _ _ => true
  | CEvent.patchNode _ => true
  | _ => false

def isCleanup : CEvent → Bool
  | CEvent.runCleanup _ => true
  | _ => false

def isRunEffect : CEvent → Bool
  | CEvent.runEffect _ => true
  | _ => false

mutual

/-- No fiber in the tree is tagged Deletion (deleted fibers are never
linked into the new child chains; they live on the side list). -/
def noDeletionTag : CFiber → Bool
  | CFiber.node _ tag _ _ children =>
      (tag != Tag.deletion) && noDeletionTagList children

/-- `noDeletionTag` over a sibling list. -/
def noDeletionTagList : List CFiber → Bool
  | [] => true
  | c :: rest => noDeletionTag c && noDeletionTagList rest

end

/-! ### Spec-side reconciliation (written from the spec, §4.3)

A second formulation of the diff for comparison with the embedded one:
the previous children are partitioned into a key map and a positional
list (step 1); each new description consumes its key-map entry or the
next positional entry (step 2); a compatible match emits Update, anything
else emits Placement and marks a non-qualifying match Deletion (step 3);
leftovers are marked Deletion (step 4). -/

/-- The Update fiber of step 3: reuse the old fiber's node, point
`alternate` at it. -/
def updFiber (o : OldFiber) (el : Elem) : NewFiber :=
  { type := o.type, key := el.key, attrs := el.attrs, dom := some o.dom,
    alternate := some o, effectTag := Tag.update }

/-- The Placement fiber of step 3: no node, no alternate. -/
def placeFiber (el : Elem) : NewFiber :=
  { type := el.type, key := el.key, attrs := el.attrs, dom := none,
    alternate := none, effectTag := Tag.placement }

/-- Step 1, keyed part: the key → previous-fiber map, in chain order. -/
def specKeyMap (olds : List OldFiber) : List (String × OldFiber) :=
  olds.filterMap (fun o => o.key.map (fun k => (k, o)))

/-- Step 1, unkeyed part: the positional list, in chain order. -/
def specByPos (olds : List OldFiber) : List OldFiber :=
  olds.filter (fun o => o.key.isNone)

/-- Steps 2–4 as direct recursion, consuming the positional list from
the front. -/
def specGo (km : List (String × OldFiber)) (bp : List OldFiber) :
    List Elem → List NewFiber × List OldFiber
  | [] => ([], bp ++ km.map (fun p => p.2))
  | el :: rest =>
      match el.key with
      | some k =>
          match mapGet km k with
          | some o =>
              let r := specGo (mapDel km k) bp rest
              if o.type = el.type then (updFiber o el :: r.1, r.2)
              else (placeFiber el :: r.1, o :: r.2)
          | none =>
              let r := specGo km bp rest
              (placeFiber el :: r.1, r.2)
      | none =>
          match bp with
          | [] =>
              let r := specGo km [] rest
              (placeFiber el :: r.1, r.2)
          | o :: bpr =>
              let r := specGo km bpr rest
              if o.type = el.type then (updFiber o el :: r.1, r.2)
              else (placeFiber el :: r.1, o :: r.2)

/-- The whole spec-side reconciliation of one parent. -/
def reconcileSpec (olds : List OldFiber) (els : List Elem) :
    List NewFiber × List OldFiber :=
  specGo (specKeyMap olds) (specByPos olds) els

/-- The committed child fibers produced by mounting `els` into an empty
parent, with DOM ids allocated from `c`: position `i` gets id `c + i`. -/
def mountOlds (c : Nat) : List Elem → List OldFiber
  | [] => []
  | el :: rest => ⟨c, el.type, el.key, el.attrs, c⟩ :: mountOlds (c + 1) rest

/-- The chain an identical re-render produces: every description paired
with its own previous fiber as an Update. -/
def matchedChain (c : Nat) : List Elem → List NewFiber
  | [] => []
  | el :: rest =>
      updFiber ⟨c, el.type, el.key, el.attrs, c⟩ el :: matchedChain (c + 1) rest

/-! ### Concrete commit inputs (claim C5 witness) -/

/-- A detached subtree pending deletion: a hook with cleanup handle 7, a
pending effect 11 with previous cleanup 3, and a first child owning
output node 4. -/
def c5DeletedFiber : CFiber :=
  CFiber.node none Tag.deletion [some 7] [⟨11, some 3⟩]
    [CFiber.node (some 4) Tag.placement [] [] []]

/-- One pending deletion whose nearest live ancestor owns node 9. -/
def c5Dels : List DeletionEntry := [⟨c5DeletedFiber, [none, some 9]⟩]

/-- A new tree: a placed host fiber owning node 5 with a pending effect
12, over an updated function-component fiber with pending effect 13
(previous cleanup 8). -/
def c5Root : CFiber :=
  CFiber.node (some 5) Tag.placement [] [⟨12, none⟩]
    [CFiber.node none Tag.update [] [⟨13, some 8⟩] []]

/-! ### The keyed-reorder scenario (spec §8) -/

/-- The keyed description `{type:'li', key:'a'}`. -/
def liA : Elem := ⟨"li", some "a", []⟩

/-- The keyed description `{type:'li', key:'b'}`. -/
def liB : Elem := ⟨"li", some "b", []⟩

/-- The mount pass of the scenario: children a, b rendered into an empty
parent, DOM ids from 0. -/
def scenarioMount : List WorkedFiber × List OldFiber × Nat × List Nat :=
  renderPass [] [liA, liB] 0 []

/-- The re-render pass of the scenario: children b, a reconciled against
the committed fibers of the mount pass. -/
def scenarioReorder : List WorkedFiber × List OldFiber × Nat × List Nat :=
  renderPass (scenarioMount.1.map toOldFiber) [liB, liA] 2
    scenarioMount.2.2.2

/-- The element-wise dependency comparison, written from the spec: some
index of the new list holds an element that differs (by `===`) from what
the old list holds there. -/
def depsChangedP (oldHook : Option (Option (List Nat)))
    (deps : Option (List Nat)) : Prop :=
  oldHook = none ∨ deps = none ∨
    ∃ od ds, oldHook = some od ∧ deps = some ds ∧
      ∃ i d, ds[i]? = some d ∧ jsIndex od i ≠ some d

/-- The scheduler's dedup invariant: the `scheduled` flag is set exactly
when one host callback is in flight. -/
def schedInv (g : Globals) : Prop :=
  g.pendingCallbacks = (if g.scheduled then 1 else 0)

/-- The deleted subtree used for claim C6: its root owns no output node
and has two children — the first owns output node 1, the second carries a
hook whose cleanup handle is 5. -/
def c6Tree : DFiber :=
  DFiber.node none []
    [DFiber.node (some 1) [] [], DFiber.node none [some 5] []]

/-! ## Theorems -/

/-- The drain loop is a left fold over the queue in enqueue order. -/
theorem drainQueue_eq_foldl {α : Type} (r : Nat → α → Nat) (s : Nat)
    (q : List α) : drainQueue r s q = List.foldl r s q := by
  induction q generalizing s with
  | nil => rfl
  | cons a rest ih => simp [drainQueue, List.foldl, ih]

/-- Claim C3: on every render, the state/reducer hook's rendered state is
the left fold of the reducer over the full pending queue in enqueue
(FIFO) order, starting from the previous state (or the initial value on
first render), and the queue is empty afterwards; in particular a state
hook with initial value 0 that is dispatched the successor function three
times renders 3 on the next render. -/
theorem c3_reducer_queue_fold {α : Type} (reducer : Nat → α → Nat)
    (initial : Nat) (oldHook : Option (RHook α)) :
    (useReducer reducer initial oldHook).state =
      List.foldl reducer
        (match oldHook with | some h => h.state | none => initial)
        (match oldHook with | some h => h.cell.queue | none => []) ∧
    (useReducer reducer initial oldHook).cell.queue = [] ∧
    (useState 0 none).state = 0 ∧
    (useState 0 (some ⟨(useState 0 none).state,
        dispatch (dispatch (dispatch ⟨[]⟩ (RAction.fnAct (fun x => x + 1)))
            (RAction.fnAct (fun x => x + 1)))
          (RAction.fnAct (fun x => x + 1))⟩)).state = 3 := by
  refine ⟨?_, rfl, rfl, rfl⟩
  cases oldHook with
  | none => simp [useReducer, drainQueue]
  | some h => simp [useReducer, drainQueue_eq_foldl]

theorem anyDepDiffers_iff (od : Option (List Nat)) (j : Nat)
    (ds : List Nat) :
    anyDepDiffers od j ds = true ↔
      ∃ i d, ds[i]? = some d ∧ jsIndex od (j + i) ≠ some d := by
  induction ds generalizing j with
  | nil => simp [anyDepDiffers]
  | cons d rest ih =>
      simp only [anyDepDiffers, Bool.or_eq_true, decide_eq_true_eq, ih]
      constructor
      · rintro (h | ⟨i, d', hget, hne⟩)
        · exact ⟨0, d, by simp, by simpa using h⟩
        · exact ⟨i + 1, d', by simpa using hget, by
            have : j + (i + 1) = j + 1 + i := by omega
            rw [this]; exact hne⟩
      · rintro ⟨i, d', hget, hne⟩
        cases i with
        | zero =>
            left
            simp only [List.getElem?_cons_zero] at hget
            cases hget
            simpa using hne
        | succ i' =>
            right
            refine ⟨i', d', by simpa using hget, ?_⟩
            have : j + 1 + i' = j + (i' + 1) := by omega
            rw [this]; exact hne

/-- The shared `depsChanged` condition agrees with the spec's wording. -/
theorem depsChanged_iff (oldHook : Option (Option (List Nat)))
    (deps : Option (List Nat)) :
    depsChanged oldHook deps = true ↔ depsChangedP oldHook deps := by
  cases oldHook with
  | none => simp [depsChanged, depsChangedP]
  | some od =>
      cases deps with
      | none => simp [depsChanged, depsChangedP]
      | some ds =>
          have h1 : depsChanged (some od) (some ds) = anyDepDiffers od 0 ds := rfl
          rw [h1, anyDepDiffers_iff]
          simp only [depsChangedP, Option.some.injEq, reduceCtorEq, false_or]
          constructor
          · rintro ⟨i, d, hget, hne⟩
            exact ⟨od, ds, rfl, rfl, i, d, hget, by simpa using hne⟩
          · rintro ⟨od2, ds2, hod, hds, i, d, hget, hne⟩
            subst hod
            subst hds
            exact ⟨i, d, hget, by simpa using hne⟩

/-- Claim C4: an effect hook enqueues its effect (with the previous
cleanup handle) exactly when there is no previous render, or the
dependency list is absent, or some element differs from the corresponding
previous one by reference equality; a memo hook re-invokes its factory
under the same condition and otherwise returns the cached value
unchanged. -/
theorem c4_effect_memo_deps (effectId : Nat) (deps : Option (List Nat))
    (oldHook : Option EffHook) (pending : List EffItem)
    (factory : Unit → Nat) (m : MemoHook) :
    ((useEffect effectId deps oldHook pending).2 =
        pending ++ [⟨effectId, oldHook.bind (fun h => h.cleanup)⟩] ↔
      depsChangedP (oldHook.map (fun h => h.deps)) deps) ∧
    ((useEffect effectId deps oldHook pending).2 = pending ↔
      ¬ depsChangedP (oldHook.map (fun h => h.deps)) deps) ∧
    ((useMemo factory deps (some m)).2 = true ↔
      depsChangedP (some m.deps) deps) ∧
    (¬ depsChangedP (some m.deps) deps →
      (useMemo factory deps (some m)).1.value = m.value) := by
  refine ⟨?_, ?_, ?_, ?_⟩
  · rw [← depsChanged_iff]
    cases oldHook with
    | none =>
        simp only [useEffect, Option.bind_none, Option.map_none']
        cases hd : depsChanged none deps <;> simp_all [depsChanged]
    | some oh =>
        simp only [useEffect, Option.bind_some, Option.map_some']
        cases hd : depsChanged (some oh.deps) deps <;> simp [hd]
  · rw [← depsChanged_iff]
    cases oldHook with
    | none =>
        simp only [useEffect, Option.map_none']
        cases hd : depsChanged none deps <;> simp_all [depsChanged]
    | some oh =>
        simp only [useEffect, Option.map_some']
        cases hd : depsChanged (some oh.deps) deps <;> simp [hd]
  · rw [← depsChanged_iff]
    simp only [useMemo, Option.map_some']
    cases hd : depsChanged (some m.deps) deps <;> simp [hd]
  · rw [← depsChanged_iff]
    simp only [useMemo, Option.map_some']
    cases hd : depsChanged (some m.deps) deps <;> simp [hd]

theorem flatPush_eq (out : List ChildOut) (l : List ChildVal) :
    flatPush out l = out ++ normSpecList true l := by
  induction out, l using flatPush.induct with
  | case1 out => simp [flatPush, normSpecList]
  | case2 out rest ih => simpa [flatPush, normSpecList, normSpec] using ih
  | case3 out rest ih => simpa [flatPush, normSpecList, normSpec] using ih
  | case4 out rest ih => simpa [flatPush, normSpecList, normSpec] using ih
  | case5 out items rest ih1 ih2 =>
      simp only [flatPush, normSpecList, normSpec]
      rw [ih1] at ih2
      rw [ih1, ih2, List.append_assoc]
  | case6 out d rest ih => simp [flatPush, normSpecList, normSpec, ih]
  | case7 out s rest ih => simp [flatPush, normSpecList, normSpec, ih]

theorem flattenList_eq (l : List ChildVal) :
    flattenList l = normSpecList false l := by
  induction l using flattenList.induct with
  | case1 => simp [flattenList, normSpecList]
  | case2 rest ih => simpa [flattenList, normSpecList, normSpec] using ih
  | case3 rest ih => simpa [flattenList, normSpecList, normSpec] using ih
  | case4 rest ih => simpa [flattenList, normSpecList, normSpec] using ih
  | case5 items rest ih1 ih2 =>
      simp [flattenList, normSpecList, normSpec, ih1, ih2]
      try rw [ih1] at ih2
      try rw [ih2]
  | case6 d rest ih => simp [flattenList, normSpecList, normSpec, ih]
  | case7 s rest ih => simp [flattenList, normSpecList, normSpec, ih]

/-- Claim C7 counterexample: a primitive returned from a component is
passed through `flattenChildren` unchanged, not coerced to a text
description. -/
theorem c7_counterexample :
    flattenChildren (ChildVal.vprim "hi") = [ChildOut.outRaw "hi"] ∧
    ChildOut.outRaw "hi" ≠ ChildOut.outText "hi" := by
  constructor
  · simp [flattenChildren, flattenList]
  · decide

/-- Claim C7 (amended): during flattening, null/undefined/false are
dropped and nested arrays are spliced in recursively on both paths, and
no child value raises an error (both functions are total); non-object
values are coerced to text descriptions in `createElement`'s child
flattening, but are passed through unchanged by the component-return
flattening `flattenChildren`. -/
theorem c7_flattening (out : List ChildOut) (args : List ChildVal)
    (v : ChildVal) :
    flatPush out args = out ++ normSpecList true args ∧
    createElementChildren args = normSpecList true args ∧
    flattenChildren v = normSpec false v := by
  refine ⟨flatPush_eq out args, ?_, ?_⟩
  · simpa [createElementChildren] using flatPush_eq [] args
  · cases v <;> simp [flattenChildren, normSpec, flattenList_eq,
      flattenList, normSpecList]

/-- What one firing of the work loop does to the scheduler state: the
cursor advances by the consumed units, and a fresh callback is armed iff
units remain. -/
theorem workLoop_spec (budget : Nat) (g : Globals) :
    (workLoop budget g).nextUnit = g.nextUnit.drop budget ∧
    ((workLoop budget g).scheduled = !(g.nextUnit.drop budget).isEmpty) ∧
    (workLoop budget g).pendingCallbacks =
      (if (g.nextUnit.drop budget).isEmpty then g.pendingCallbacks - 1
       else g.pendingCallbacks - 1 + 1) := by
  unfold workLoop scheduleWork
  cases hE : (g.nextUnit.drop budget).isEmpty <;>
    cases hw : g.wipRoot <;>
      simp_all <;>
      (have hle : ¬ g.nextUnit.length ≤ budget := by omega
       simp [hle])

/-- Claim C9: at most one cooperative callback is ever pending:
`scheduleWork` is a no-op while one is in flight, arms exactly one when
none is, and after a callback fires the work loop re-arms one if and only
if work units remain. -/
theorem c9_single_callback (g : Globals) (budget : Nat)
    (h : schedInv g) :
    (g.scheduled = true → scheduleWork g = g) ∧
    (g.scheduled = false → (scheduleWork g).scheduled = true ∧
      (scheduleWork g).pendingCallbacks = g.pendingCallbacks + 1) ∧
    (scheduleWork g).pendingCallbacks ≤ 1 ∧
    schedInv (scheduleWork g) ∧
    schedInv (workLoop budget g) ∧
    ((workLoop budget g).pendingCallbacks = 1 →
      (workLoop budget g).nextUnit ≠ []) := by
  unfold schedInv at h
  refine ⟨?_, ?_, ?_, ?_, ?_, ?_⟩
  · intro hs; simp [scheduleWork, hs]
  · intro hs; simp [scheduleWork, hs]
  · cases hs : g.scheduled <;> simp_all [scheduleWork]
  · cases hs : g.scheduled <;> simp_all [schedInv, scheduleWork]
  · have hs := workLoop_spec budget g
    unfold schedInv
    rw [hs.2.1, hs.2.2]
    cases hE : (g.nextUnit.drop budget).isEmpty <;>
      cases hb : g.scheduled <;> simp_all
  · have hs := workLoop_spec budget g
    intro hp
    rw [hs.2.2] at hp
    rw [hs.1]
    cases hE : (g.nextUnit.drop budget).isEmpty with
    | true =>
        simp [hE] at hp
        cases hb : g.scheduled <;> simp [hb] at h <;> omega
    | false =>
        intro hnil
        rw [hnil] at hE
        simp at hE

/-- Claim C9 witness: the theorem applied to a concrete state. -/
theorem c9_single_callback_witness :
    schedInv (⟨[1, 2], some 9, none, [], true, 1⟩ : Globals) ∧
    scheduleWork (⟨[1, 2], some 9, none, [], true, 1⟩ : Globals) =
      (⟨[1, 2], some 9, none, [], true, 1⟩ : Globals) := by
  have h : schedInv (⟨[1, 2], some 9, none, [], true, 1⟩ : Globals) := by
    simp [schedInv]
  exact ⟨h, (c9_single_callback (⟨[1, 2], some 9, none, [], true, 1⟩ : Globals)
    1 h).1 rfl⟩

/-- Claim C10: a dispatch-handle invocation before any commit (no
current root) appends the action to the cell's queue but changes nothing
else: the work-in-progress root, the next-unit cursor, the deletions list
and the scheduler flag and callback count are all left as they were. -/
theorem c10_dispatch_without_root {α : Type} (g : Globals) (cell : RCell α)
    (a : α) (h : g.curRoot = none) :
    (dispatchGlobal g cell a).2.queue = cell.queue ++ [a] ∧
    (dispatchGlobal g cell a).1 = g ∧
    (dispatchGlobal g cell a).1.wipRoot = g.wipRoot ∧
    (dispatchGlobal g cell a).1.nextUnit = g.nextUnit ∧
    (dispatchGlobal g cell a).1.deletions = g.deletions ∧
    (dispatchGlobal g cell a).1.scheduled = g.scheduled ∧
    (dispatchGlobal g cell a).1.pendingCallbacks = g.pendingCallbacks := by
  have h1 : dispatchGlobal g cell a = (g, ⟨cell.queue ++ [a]⟩) := by
    unfold dispatchGlobal scheduleUpdate dispatch
    rw [h]
  rw [h1]
  exact ⟨rfl, rfl, rfl, rfl, rfl, rfl, rfl⟩

/-- Claim C10 witness: the theorem applied to a concrete state with a
non-empty queue, a pending unit and a live work-in-progress root. -/
theorem c10_dispatch_without_root_witness :
    ((⟨[1], some 5, none, [2], true, 1⟩ : Globals).curRoot = none) ∧
    (dispatchGlobal (⟨[1], some 5, none, [2], true, 1⟩ : Globals)
        (⟨[3]⟩ : RCell Nat) 7).2.queue = [3, 7] ∧
    (dispatchGlobal (⟨[1], some 5, none, [2], true, 1⟩ : Globals)
        (⟨[3]⟩ : RCell Nat) 7).1 = ⟨[1], some 5, none, [2], true, 1⟩ := by
  have h := c10_dispatch_without_root
    (⟨[1], some 5, none, [2], true, 1⟩ : Globals) (⟨[3]⟩ : RCell Nat) 7 rfl
  exact ⟨rfl, h.1, h.2.1⟩

/-- Claim C6 at the failing input: committing the deletion of `c6Tree`
detaches output node 1, but the cleanup handle 5, though present in the
deleted subtree, is never invoked — `cleanupEffectTree` follows only the
first-child chain and never reaches the second child. -/
theorem c6_cleanup_missed :
    (5 ∈ subtreeCleanups c6Tree) ∧
    cleanupEffectTree c6Tree = [] ∧
    removeFiberDom c6Tree = some 1 := by
  refine ⟨?_, ?_, ?_⟩ <;>
    simp [c6Tree, subtreeCleanups, subtreeCleanupsList, cleanupEffectTree,
      removeFiberDom]

/-! ### Reconciliation lemmas (claims C2, C1, C8) -/

/-- The loop's `byPos[posIdx++]` cursor is head-consumption of the
remaining positional suffix: the embedded loop agrees with the spec-side
recursion. -/
theorem reconGo_eq_specGo (els : List Elem) (byPos : List OldFiber)
    (km : List (String × OldFiber)) (i : Nat) :
    reconGo byPos km i els = specGo km (byPos.drop i) els := by
  induction els generalizing km i with
  | nil => simp [reconGo, specGo]
  | cons el rest ih =>
      cases hk : el.key with
      | some k =>
          cases hm : mapGet km k with
          | some o =>
              by_cases ht : o.type = el.type <;>
                simp [reconGo, specGo, hk, hm, ht, ih, updFiber, placeFiber]
          | none =>
              simp [reconGo, specGo, hk, hm, ih, placeFiber]
      | none =>
          have h1 : byPos[i]? = (byPos.drop i).head? :=
            (List.head?_drop byPos i).symm
          have h2 : byPos.drop (i + 1) = (byPos.drop i).tail :=
            (List.tail_drop byPos i).symm
          cases hd : byPos.drop i with
          | nil =>
              rw [hd] at h1 h2
              simp only [List.head?_nil] at h1
              simp only [List.tail_nil] at h2
              simp [reconGo, specGo, hk, h1, h2, ih, placeFiber, hd]
          | cons o bpr =>
              rw [hd] at h1 h2
              simp only [List.head?_cons] at h1
              simp only [List.tail_cons] at h2
              by_cases ht : o.type = el.type <;>
                simp [reconGo, specGo, hk, h1, h2, ht, ih, updFiber,
                  placeFiber, hd]

/-- Removing a found entry from the key map drops exactly one occurrence
of its image. -/
theorem mapGet_perm {β : Type} (f : String × OldFiber → β)
    (km : List (String × OldFiber)) (k : String) (o : OldFiber)
    (h : mapGet km k = some o) :
    (km.map f).Perm (f (k, o) :: (mapDel km k).map f) := by
  induction km with
  | nil => simp [mapGet] at h
  | cons p rest ih =>
      obtain ⟨k0, v0⟩ := p
      by_cases hk : k0 = k
      · subst hk
        simp [mapGet] at h
        subst h
        simp [mapDel]
      · simp only [mapGet, if_neg hk] at h
        have h3 := ih h
        simp only [mapDel, if_neg hk, List.map_cons]
        exact (h3.cons (f (k0, v0))).trans (List.Perm.swap _ _ _)

/-- Step 2–4 conservation: every previous fiber handed to the diff is
either reused (it appears as some produced fiber's `alternate`) or marked
Deletion — as a permutation of multisets. -/
theorem specGo_perm (els : List Elem) (km : List (String × OldFiber))
    (bp : List OldFiber) :
    (km.map (fun p => p.2) ++ bp).Perm
      ((specGo km bp els).1.filterMap NewFiber.alternate ++
        (specGo km bp els).2) := by
  induction els generalizing km bp with
  | nil =>
      simp only [specGo, List.filterMap_nil, List.nil_append]
      exact List.perm_append_comm
  | cons el rest ih =>
      cases hk : el.key with
      | some k =>
          cases hm : mapGet km k with
          | some o =>
              have hM := mapGet_perm (fun p => p.2) km k o hm
              by_cases ht : o.type = el.type
              · simp only [specGo, hk, hm, if_pos ht, List.filterMap_cons,
                  updFiber]
                exact (hM.append_right bp).trans ((ih (mapDel km k) bp).cons o)
              · simp only [specGo, hk, hm, if_neg ht, List.filterMap_cons,
                  placeFiber]
                exact (hM.append_right bp).trans
                  (((ih (mapDel km k) bp).cons o).trans List.perm_middle.symm)
          | none =>
              simp only [specGo, hk, hm, List.filterMap_cons, placeFiber]
              exact ih km bp
      | none =>
          cases hd : bp with
          | nil =>
              simp only [specGo, hk, List.filterMap_cons, placeFiber]
              exact ih km []
          | cons o bpr =>
              have hmid : (km.map (fun p => p.2) ++ o :: bpr).Perm
                  (o :: (km.map (fun p => p.2) ++ bpr)) := List.perm_middle
              by_cases ht : o.type = el.type
              · simp only [specGo, hk, if_pos ht, List.filterMap_cons,
                  updFiber]
                exact hmid.trans ((ih km bpr).cons o)
              · simp only [specGo, hk, if_neg ht, List.filterMap_cons,
                  placeFiber]
                exact hmid.trans
                  (((ih km bpr).cons o).trans List.perm_middle.symm)

/-- Assigning a fresh key appends the entry. -/
theorem mapSet_append (km : List (String × OldFiber)) (k : String)
    (v : OldFiber) (h : k ∉ km.map Prod.fst) :
    mapSet km k v = km ++ [(k, v)] := by
  induction km with
  | nil => rfl
  | cons p rest ih =>
      obtain ⟨k0, v0⟩ := p
      simp only [List.map_cons, List.mem_cons] at h
      push_neg at h
      have hne : ¬ k0 = k := fun hh => h.1 hh.symm
      simp only [mapSet, if_neg hne, ih h.2, List.cons_append]

theorem specKeyMap_cons_some (f : OldFiber) (rest : List OldFiber)
    (k : String) (hk : f.key = some k) :
    specKeyMap (f :: rest) = (k, f) :: specKeyMap rest := by
  simp [specKeyMap, List.filterMap_cons, hk]

theorem specKeyMap_cons_none (f : OldFiber) (rest : List OldFiber)
    (hk : f.key = none) : specKeyMap (f :: rest) = specKeyMap rest := by
  simp [specKeyMap, List.filterMap_cons, hk]

theorem specByPos_cons_some (f : OldFiber) (rest : List OldFiber)
    (k : String) (hk : f.key = some k) :
    specByPos (f :: rest) = specByPos rest := by
  simp [specByPos, List.filter_cons, hk]

theorem specByPos_cons_none (f : OldFiber) (rest : List OldFiber)
    (hk : f.key = none) : specByPos (f :: rest) = f :: specByPos rest := by
  simp [specByPos, List.filter_cons, hk]

/-- With pairwise-distinct keys among the previous children, the
one-pass scan builds exactly the spec partition. -/
theorem buildMapsGo_eq (olds : List OldFiber) (km : List (String × OldFiber))
    (bp : List OldFiber)
    (h : (km.map Prod.fst ++ olds.filterMap OldFiber.key).Nodup) :
    buildMapsGo km bp olds = (km ++ specKeyMap olds, bp ++ specByPos olds) := by
  induction olds generalizing km bp with
  | nil => simp [buildMapsGo, specKeyMap, specByPos]
  | cons f rest ih =>
      cases hk : f.key with
      | some k =>
          rw [List.filterMap_cons, hk] at h
          have hkm : k ∉ km.map Prod.fst := by
            have hd := (List.nodup_append.mp h).2.2
            intro hmem
            exact hd hmem (by simp)
          have h2 : ((km ++ [(k, f)]).map Prod.fst ++
              rest.filterMap OldFiber.key).Nodup := by
            simpa [List.append_assoc] using h
          have h3 := ih (km ++ [(k, f)]) bp h2
          rw [specKeyMap_cons_some f rest k hk, specByPos_cons_some f rest k hk]
          simp only [buildMapsGo, hk, mapSet_append km k f hkm, h3,
            List.append_assoc, List.singleton_append]
      | none =>
          rw [List.filterMap_cons, hk] at h
          have h3 := ih km (bp ++ [f]) h
          rw [specKeyMap_cons_none f rest hk, specByPos_cons_none f rest hk]
          simp only [buildMapsGo, hk, h3, List.append_assoc,
            List.singleton_append]

/-- `buildMaps` equals the spec partition when keys are distinct. -/
theorem buildMaps_eq (olds : List OldFiber)
    (hk : (olds.filterMap OldFiber.key).Nodup) :
    buildMaps olds = (specKeyMap olds, specByPos olds) := by
  simpa [buildMaps] using buildMapsGo_eq olds [] [] (by simpa using hk)

/-- The embedded `reconcileChildren` coincides with the spec-side
reconciliation whenever the previous children's keys are pairwise
distinct. -/
theorem reconcileChildren_eq_spec (olds : List OldFiber) (els : List Elem)
    (hk : (olds.filterMap OldFiber.key).Nodup) :
    reconcileChildren olds els = reconcileSpec olds els := by
  unfold reconcileChildren reconcileSpec
  rw [buildMaps_eq olds hk]
  simpa using reconGo_eq_specGo els (specByPos olds) (specKeyMap olds) 0

/-- The spec partition is a permutation of the previous children. -/
theorem specPartition_perm (olds : List OldFiber) :
    ((specKeyMap olds).map (fun p => p.2) ++ specByPos olds).Perm olds := by
  induction olds with
  | nil => simp [specKeyMap, specByPos]
  | cons f rest ih =>
      cases hk : f.key with
      | some k =>
          rw [specKeyMap_cons_some f rest k hk, specByPos_cons_some f rest k hk]
          simpa using ih.cons f
      | none =>
          rw [specKeyMap_cons_none f rest hk, specByPos_cons_none f rest hk]
          exact List.perm_middle.trans (ih.cons f)

/-- A previous fiber ends up in the deletions list iff no produced fiber
reuses it, provided the starting state has no duplicate fibers. -/
theorem specGo_mem_dels_iff (els : List Elem)
    (km : List (String × OldFiber)) (bp : List OldFiber)
    (hnd : (km.map (fun p => p.2) ++ bp).Nodup) (g : OldFiber)
    (hg : g ∈ km.map (fun p => p.2) ++ bp) :
    g ∈ (specGo km bp els).2 ↔
      ¬ ∃ f ∈ (specGo km bp els).1, f.alternate = some g := by
  have hP := specGo_perm els km bp
  have hnd2 : ((specGo km bp els).1.filterMap NewFiber.alternate ++
      (specGo km bp els).2).Nodup := hP.nodup_iff.mp hnd
  have hg2 := hP.mem_iff.mp hg
  rw [List.mem_append] at hg2
  have hdisj := (List.nodup_append.mp hnd2).2.2
  constructor
  · rintro hdel ⟨f, hf, hfa⟩
    exact hdisj (List.mem_filterMap.mpr ⟨f, hf, hfa⟩) hdel
  · intro hnex
    cases hg2 with
    | inl h => exact absurd (List.mem_filterMap.mp h) hnex
    | inr h => exact h

/-- Claim C2 counterexample: two previous keyed children share key "a";
the key-map build silently overwrites the first, so after reconciling
against an empty description list the first fiber — never consumed — is
not marked Deletion. -/
theorem c2_counterexample :
    (reconcileChildren [⟨1, "li", some "a", [], 10⟩,
        ⟨2, "li", some "a", [], 11⟩] []).1 = [] ∧
    (reconcileChildren [⟨1, "li", some "a", [], 10⟩,
        ⟨2, "li", some "a", [], 11⟩] []).2 =
      [⟨2, "li", some "a", [], 11⟩] ∧
    (⟨1, "li", some "a", [], 10⟩ : OldFiber) ∉
      (reconcileChildren [⟨1, "li", some "a", [], 10⟩,
        ⟨2, "li", some "a", [], 11⟩] []).2 := by
  refine ⟨by decide, by decide, by decide⟩

/-- Claim C2 (amended: previous children must carry pairwise-distinct
keys and be pairwise-distinct fibers; with a duplicated key the earlier
fiber is silently dropped from the key map and never marked Deletion):
the embedded diff matches each description per the keyed/positional
discipline, emitting Update (reusing `dom`, `alternate` set) on a
type-compatible match and Placement otherwise (marking a non-qualifying
match Deletion), links the produced fibers in description order, and
marks exactly the never-reused previous fibers Deletion. -/
theorem c2_reconcile (olds : List OldFiber) (els : List Elem)
    (hk : (olds.filterMap OldFiber.key).Nodup) (hnd : olds.Nodup) :
    reconcileChildren olds els = reconcileSpec olds els ∧
    (∀ old ∈ olds,
      (old ∈ (reconcileChildren olds els).2 ↔
        ¬ ∃ f ∈ (reconcileChildren olds els).1, f.alternate = some old)) := by
  have he := reconcileChildren_eq_spec olds els hk
  refine ⟨he, ?_⟩
  intro old hmem
  rw [he]
  unfold reconcileSpec
  have hperm := specPartition_perm olds
  exact specGo_mem_dels_iff els _ _ (hperm.nodup_iff.mpr hnd) old
    (hperm.mem_iff.mpr hmem)

/-- Claim C2 witness: the theorem applied to a mixed keyed/unkeyed
concrete input (one compatible keyed match, one incompatible positional
match, one leftover). -/
theorem c2_reconcile_witness :
    reconcileChildren
        [⟨1, "li", some "a", [], 10⟩, ⟨2, "div", none, [], 11⟩,
         ⟨3, "p", none, [], 12⟩]
        [⟨"li", some "a", []⟩, ⟨"span", none, []⟩] =
      reconcileSpec
        [⟨1, "li", some "a", [], 10⟩, ⟨2, "div", none, [], 11⟩,
         ⟨3, "p", none, [], 12⟩]
        [⟨"li", some "a", []⟩, ⟨"span", none, []⟩] ∧
    ((⟨3, "p", none, [], 12⟩ : OldFiber) ∈
        (reconcileChildren
          [⟨1, "li", some "a", [], 10⟩, ⟨2, "div", none, [], 11⟩,
           ⟨3, "p", none, [], 12⟩]
          [⟨"li", some "a", []⟩, ⟨"span", none, []⟩]).2 ↔
      ¬ ∃ f ∈ (reconcileChildren
          [⟨1, "li", some "a", [], 10⟩, ⟨2, "div", none, [], 11⟩,
           ⟨3, "p", none, [], 12⟩]
          [⟨"li", some "a", []⟩, ⟨"span", none, []⟩]).1,
        f.alternate = some ⟨3, "p", none, [], 12⟩) := by
  have h := c2_reconcile
    [⟨1, "li", some "a", [], 10⟩, ⟨2, "div", none, [], 11⟩,
     ⟨3, "p", none, [], 12⟩]
    [⟨"li", some "a", []⟩, ⟨"span", none, []⟩] (by decide) (by decide)
  exact ⟨h.1, h.2 ⟨3, "p", none, [], 12⟩ (by decide)⟩

/-- `delete` leaves a sublist of the map. -/
theorem mapDel_sublist (km : List (String × OldFiber)) (k : String) :
    (mapDel km k).Sublist km := by
  induction km with
  | nil => simp [mapDel]
  | cons p rest ih =>
      obtain ⟨k0, v0⟩ := p
      by_cases hk : k0 = k
      · simp [mapDel, hk]
      · simp only [mapDel, if_neg hk]
        exact ih.cons₂ (k0, v0)

/-- With pairwise-distinct keys, lookup finds exactly the entry. -/
theorem mapGet_of_nodup (km : List (String × OldFiber)) (k : String)
    (o : OldFiber) (hnd : (km.map Prod.fst).Nodup) (h : (k, o) ∈ km) :
    mapGet km k = some o := by
  induction km with
  | nil => cases h
  | cons p rest ih =>
      obtain ⟨k0, v0⟩ := p
      simp only [List.map_cons, List.nodup_cons] at hnd
      rcases List.mem_cons.mp h with heq | hmem
      · rw [Prod.mk.injEq] at heq
        obtain ⟨h1, h2⟩ := heq
        subst h1
        subst h2
        simp [mapGet]
      · have hne : ¬ k0 = k := by
          intro he
          subst he
          exact hnd.1 (List.mem_map.mpr ⟨(k0, o), hmem, rfl⟩)
        simp only [mapGet, if_neg hne]
        exact ih hnd.2 hmem

/-- All-keyed previous children leave the positional list empty. -/
theorem specByPos_nil (olds : List OldFiber)
    (h : ∀ o ∈ olds, o.key.isSome = true) : specByPos olds = [] := by
  induction olds with
  | nil => rfl
  | cons f rest ih =>
      cases hk : f.key with
      | some k =>
          rw [specByPos_cons_some f rest k hk]
          exact ih (fun o ho => h o (by simp [ho]))
      | none => exact absurd (h f (by simp)) (by simp [hk])

/-- For all-keyed previous children the key map carries exactly their
(key, type) pairs in order. -/
theorem specKeyMap_pairs (olds : List OldFiber)
    (h : ∀ o ∈ olds, o.key.isSome = true) :
    (specKeyMap olds).map (fun p => ((some p.1 : Option String), p.2.type)) =
      olds.map (fun o => (o.key, o.type)) := by
  induction olds with
  | nil => rfl
  | cons f rest ih =>
      cases hk : f.key with
      | some k =>
          rw [specKeyMap_cons_some f rest k hk]
          simp only [List.map_cons, hk]
          rw [ih (fun o ho => h o (by simp [ho]))]
      | none => exact absurd (h f (by simp)) (by simp [hk])

/-- The key map's keys are the keyed children's keys. -/
theorem specKeyMap_keys (olds : List OldFiber) :
    (specKeyMap olds).map Prod.fst = olds.filterMap OldFiber.key := by
  induction olds with
  | nil => rfl
  | cons f rest ih =>
      cases hk : f.key with
      | some k =>
          rw [specKeyMap_cons_some f rest k hk, List.filterMap_cons, hk]
          simp [ih]
      | none =>
          rw [specKeyMap_cons_none f rest hk, List.filterMap_cons, hk]
          exact ih

/-- Reordering keyed descriptions: when the new descriptions carry
exactly the previous children's (key, type) pairs (in any order, keys
distinct) and the positional list is empty, every produced fiber is an
Update reusing a node, and nothing is marked Deletion. -/
theorem specGo_reorder (els : List Elem) (km : List (String × OldFiber))
    (hnd : (km.map Prod.fst).Nodup)
    (hperm : (els.map (fun el => (el.key, el.type))).Perm
      (km.map (fun p => ((some p.1 : Option String), p.2.type)))) :
    (∀ f ∈ (specGo km [] els).1,
      f.effectTag = Tag.update ∧ f.dom.isSome = true) ∧
    (specGo km [] els).2 = [] := by
  induction els generalizing km with
  | nil =>
      have h0 : km.map (fun p => ((some p.1 : Option String), p.2.type)) = [] :=
        List.perm_nil.mp hperm.symm
      have h1 : km = [] := List.map_eq_nil_iff.mp h0
      subst h1
      simp [specGo]
  | cons el rest ih =>
      have hhead : (el.key, el.type) ∈
          km.map (fun p => ((some p.1 : Option String), p.2.type)) :=
        hperm.mem_iff.mp (by simp)
      obtain ⟨p, hp, hpe⟩ := List.mem_map.mp hhead
      obtain ⟨k, o⟩ := p
      rw [Prod.mk.injEq] at hpe
      have hEk : el.key = some k := hpe.1.symm
      have hEt : o.type = el.type := hpe.2
      have hget : mapGet km k = some o := mapGet_of_nodup km k o hnd hp
      have hdel := mapGet_perm
        (fun p => ((some p.1 : Option String), p.2.type)) km k o hget
      have hnd2 : ((mapDel km k).map Prod.fst).Nodup :=
        hnd.sublist ((mapDel_sublist km k).map Prod.fst)
      have hperm2 : (rest.map (fun el => (el.key, el.type))).Perm
          ((mapDel km k).map
            (fun p => ((some p.1 : Option String), p.2.type))) := by
        have h3 := hperm.trans hdel
        rw [List.map_cons, hEk] at h3
        exact (by simpa [hEt] using h3 : ((some k, el.type) ::
          rest.map (fun el => (el.key, el.type))).Perm
          ((some k, el.type) :: (mapDel km k).map
            (fun p => ((some p.1 : Option String), p.2.type)))).cons_inv
      have hrec := ih (mapDel km k) hnd2 hperm2
      simp only [specGo, hEk, hget, if_pos hEt]
      constructor
      · intro f hf
        rcases List.mem_cons.mp hf with hl | hr
        · subst hl
          simp [updFiber]
        · exact hrec.1 f hr
      · exact hrec.2

/-- The work phase allocates no node when every fiber already owns one. -/
theorem workChain_counter_of_some (c : Nat) (chain : List NewFiber)
    (h : ∀ f ∈ chain, f.dom.isSome = true) : (workChain c chain).2 = c := by
  induction chain generalizing c with
  | nil => rfl
  | cons f rest ih =>
      obtain ⟨d, hd⟩ := Option.isSome_iff_exists.mp (h f (by simp))
      simp only [workChain, hd]
      exact ih c (fun g hg => h g (by simp [hg]))

/-- The work phase preserves effect tags. -/
theorem workChain_tags_update (c : Nat) (chain : List NewFiber)
    (h : ∀ f ∈ chain, f.effectTag = Tag.update) :
    ∀ w ∈ (workChain c chain).1, w.effectTag = Tag.update := by
  induction chain generalizing c with
  | nil => intro w hw; simp [workChain] at hw
  | cons f rest ih =>
      intro w hw
      cases hd : f.dom with
      | some d =>
          simp only [workChain, hd] at hw
          rcases List.mem_cons.mp hw with hl | hr
          · subst hl; exact h f (by simp)
          · exact ih c (fun g hg => h g (by simp [hg])) w hr
      | none =>
          simp only [workChain, hd] at hw
          rcases List.mem_cons.mp hw with hl | hr
          · subst hl; exact h f (by simp)
          · exact ih (c + 1) (fun g hg => h g (by simp [hg])) w hr

/-- Committing a chain without Placements leaves the parent's child
list untouched. -/
theorem commitChain_no_placement (kids : List Nat)
    (chain : List WorkedFiber)
    (h : ∀ f ∈ chain, f.effectTag ≠ Tag.placement) :
    commitChain kids chain = kids := by
  induction chain generalizing kids with
  | nil => rfl
  | cons f rest ih =>
      have hf := h f (by simp)
      cases ht : f.effectTag with
      | placement => exact absurd ht hf
      | update =>
          simp only [commitChain, ht]
          exact ih kids (fun g hg => h g (by simp [hg]))
      | deletion =>
          simp only [commitChain, ht]
          exact ih kids (fun g hg => h g (by simp [hg]))

/-- Claim C1 counterexample: the scenario of §8.  Mounting keyed li
children a, b and re-rendering with b, a yields two Update fibers in
fiber order b, a with zero node creations — but the committed output
child order stays [a, b] ([0, 1]): it does not become the new
description order [1, 0], because `commitWork` appends nodes only for
Placement fibers and never moves an Update fiber's node. -/
theorem c1_counterexample :
    scenarioReorder.1.map WorkedFiber.effectTag =
      [Tag.update, Tag.update] ∧
    scenarioReorder.2.2.1 = 0 ∧
    scenarioReorder.1.map WorkedFiber.dom = [1, 0] ∧
    scenarioMount.2.2.2 = [0, 1] ∧
    scenarioReorder.2.2.2 = [0, 1] ∧
    scenarioReorder.2.2.2 ≠ [1, 0] := by
  exact ⟨by decide, by decide, by decide, by decide, by decide, by decide⟩

/-- Claim C1 (amended: the reordered fibers are all tagged Update with
no Placement/Deletion among them and zero new output nodes are created,
but the committed output child order stays the PREVIOUS committed order,
not the new description order — Update commits never move nodes): for
every parent whose keyed children (distinct keys) are re-described as a
permutation with unchanged keys and types, reconciliation emits only
Updates, marks nothing for deletion, the work phase creates zero nodes,
and commit leaves the parent's child list exactly as it was. -/
theorem c1_keyed_reorder (olds : List OldFiber) (els : List Elem)
    (c : Nat) (kids : List Nat)
    (hall : ∀ o ∈ olds, o.key.isSome = true)
    (hk : (olds.filterMap OldFiber.key).Nodup)
    (hperm : (els.map (fun el => (el.key, el.type))).Perm
      (olds.map (fun o => (o.key, o.type)))) :
    (∀ f ∈ (reconcileChildren olds els).1, f.effectTag = Tag.update) ∧
    (reconcileChildren olds els).2 = [] ∧
    (workChain c (reconcileChildren olds els).1).2 = c ∧
    commitDeletions (reconcileChildren olds els).2 kids = kids ∧
    commitChain kids (workChain c (reconcileChildren olds els).1).1 =
      kids := by
  have he := reconcileChildren_eq_spec olds els hk
  have hbp := specByPos_nil olds hall
  have hknd : ((specKeyMap olds).map Prod.fst).Nodup := by
    rw [specKeyMap_keys]
    exact hk
  have hmain := specGo_reorder els (specKeyMap olds) hknd
    (by rw [specKeyMap_pairs olds hall]; exact hperm)
  have he2 : reconcileChildren olds els =
      specGo (specKeyMap olds) [] els := by
    rw [he]
    unfold reconcileSpec
    rw [hbp]
  rw [he2]
  refine ⟨fun f hf => (hmain.1 f hf).1, hmain.2, ?_, ?_, ?_⟩
  · exact workChain_counter_of_some c _ (fun f hf => (hmain.1 f hf).2)
  · rw [hmain.2]
    rfl
  · apply commitChain_no_placement
    intro f hf
    have ht := workChain_tags_update c _ (fun g hg => (hmain.1 g hg).1) f hf
    simp [ht]

/-- Claim C1 witness: the amended theorem applied to the §8 scenario
(re-render b, a against the mounted a, b). -/
theorem c1_keyed_reorder_witness :
    (∀ f ∈ (reconcileChildren (scenarioMount.1.map toOldFiber)
        [liB, liA]).1, f.effectTag = Tag.update) ∧
    (reconcileChildren (scenarioMount.1.map toOldFiber) [liB, liA]).2 =
      [] ∧
    (workChain 2 (reconcileChildren (scenarioMount.1.map toOldFiber)
        [liB, liA]).1).2 = 2 ∧
    commitChain scenarioMount.2.2.2
        (workChain 2 (reconcileChildren (scenarioMount.1.map toOldFiber)
          [liB, liA]).1).1 = scenarioMount.2.2.2 := by
  have h := c1_keyed_reorder (scenarioMount.1.map toOldFiber) [liB, liA]
    2 scenarioMount.2.2.2 (by decide) (by decide) (by decide)
  exact ⟨h.1, h.2.1, h.2.2.1, h.2.2.2.2⟩

/-! ### Round-trip lemmas (claim C8) -/

/-- Reconciling against an empty previous chain places everything. -/
theorem specGo_empty (els : List Elem) :
    specGo [] [] els = (els.map placeFiber, []) := by
  induction els with
  | nil => simp [specGo]
  | cons el rest ih =>
      cases hk : el.key with
      | some k => simp [specGo, hk, mapGet, ih]
      | none => simp [specGo, hk, ih]

/-- The work phase turns a freshly placed chain into the mount fibers
with sequential DOM ids. -/
theorem workChain_mount (c : Nat) (els : List Elem) :
    ((workChain c (els.map placeFiber)).1).map toOldFiber =
      mountOlds c els := by
  induction els generalizing c with
  | nil => rfl
  | cons el rest ih =>
      simp only [List.map_cons, placeFiber, workChain]
      simp only [List.map_cons, toOldFiber, mountOlds]
      rw [ih (c + 1)]

/-- Mounting preserves the description keys. -/
theorem mountOlds_keys (c : Nat) (els : List Elem) :
    (mountOlds c els).filterMap OldFiber.key = els.filterMap Elem.key := by
  induction els generalizing c with
  | nil => rfl
  | cons el rest ih =>
      simp only [mountOlds, List.filterMap_cons]
      cases hk : el.key <;> simp [hk, ih (c + 1)]

/-- Re-rendering the identical description list against its own mount
pairs every description with its own previous fiber as an Update and
deletes nothing. -/
theorem specGo_mount (c : Nat) (els : List Elem) :
    specGo (specKeyMap (mountOlds c els)) (specByPos (mountOlds c els))
      els = (matchedChain c els, []) := by
  induction els generalizing c with
  | nil => simp [mountOlds, specKeyMap, specByPos, specGo, matchedChain]
  | cons el rest ih =>
      cases hk : el.key with
      | some k =>
          have hK : specKeyMap (mountOlds c (el :: rest)) =
              (k, ⟨c, el.type, el.key, el.attrs, c⟩) ::
                specKeyMap (mountOlds (c + 1) rest) := by
            simp only [mountOlds]
            exact specKeyMap_cons_some _ _ k hk
          have hB : specByPos (mountOlds c (el :: rest)) =
              specByPos (mountOlds (c + 1) rest) := by
            simp only [mountOlds]
            exact specByPos_cons_some _ _ k hk
          rw [hK, hB]
          simp only [specGo, hk, mapGet, if_pos rfl, mapDel]
          simp only [matchedChain, updFiber]
          simp [ih (c + 1), hk]
      | none =>
          have hK : specKeyMap (mountOlds c (el :: rest)) =
              specKeyMap (mountOlds (c + 1) rest) := by
            simp only [mountOlds]
            exact specKeyMap_cons_none _ _ hk
          have hB : specByPos (mountOlds c (el :: rest)) =
              (⟨c, el.type, el.key, el.attrs, c⟩ : OldFiber) ::
                specByPos (mountOlds (c + 1) rest) := by
            simp only [mountOlds]
            exact specByPos_cons_none _ _ hk
          rw [hK, hB]
          simp only [specGo, hk]
          simp only [matchedChain, updFiber]
          simp [ih (c + 1), hk]

/-- Every fiber of the identical-re-render chain is an Update that
reuses a node, whose alternate carries the same props, and whose props
are one of the descriptions'. -/
theorem matchedChain_spec (c : Nat) (els : List Elem) :
    ∀ f ∈ matchedChain c els, f.effectTag = Tag.update ∧
      f.dom.isSome = true ∧
      (∀ o, f.alternate = some o → o.attrs = f.attrs) ∧
      f.attrs ∈ els.map Elem.attrs := by
  induction els generalizing c with
  | nil => intro f hf; simp [matchedChain] at hf
  | cons el rest ih =>
      intro f hf
      rcases List.mem_cons.mp hf with hl | hr
      · subst hl
        refine ⟨rfl, rfl, ?_, by simp [updFiber]⟩
        intro o ho
        simp only [updFiber, Option.some.injEq] at ho
        subst ho
        rfl
      · obtain ⟨h1, h2, h3, h4⟩ := ih (c + 1) f hr
        exact ⟨h1, h2, h3, by simp [h4]⟩

/-- A present key looks up to something. -/
theorem lookup_isSome_of_mem (a : List (String × Nat)) (k : String)
    (v : Nat) (h : (k, v) ∈ a) : (a.lookup k).isSome = true := by
  induction a with
  | nil => cases h
  | cons p rest ih =>
      obtain ⟨k0, v0⟩ := p
      by_cases hk : k = k0
      · simp [List.lookup, hk]
      · rcases List.mem_cons.mp h with he | hm
        · rw [Prod.mk.injEq] at he
          exact absurd he.1 hk
        · have hb : (k == k0) = false := by simp [hk]
          simp only [List.lookup, hb]
          exact ih hm

/-- With pairwise-distinct keys, lookup returns a pair's own value. -/
theorem lookup_eq_of_nodup (a : List (String × Nat)) (k : String)
    (v : Nat) (hnd : (a.map Prod.fst).Nodup) (h : (k, v) ∈ a) :
    a.lookup k = some v := by
  induction a with
  | nil => cases h
  | cons p rest ih =>
      obtain ⟨k0, v0⟩ := p
      simp only [List.map_cons, List.nodup_cons] at hnd
      rcases List.mem_cons.mp h with he | hm
      · rw [Prod.mk.injEq] at he
        obtain ⟨h1, h2⟩ := he
        subst h1
        subst h2
        simp [List.lookup]
      · have hk : ¬ k = k0 := by
          intro he
          subst he
          exact hnd.1 (List.mem_map.mpr ⟨(k, v), hm, rfl⟩)
        have hb : (k == k0) = false := by simp [hk]
        simpa [List.lookup, hb] using ih hnd.2 hm

theorem patchPassOne_self (a l : List (String × Nat))
    (h : ∀ p ∈ l, p ∈ a) : patchPassOne a l = [] := by
  induction l with
  | nil => rfl
  | cons p rest ih =>
      obtain ⟨k, v⟩ := p
      have hS := lookup_isSome_of_mem a k v (h _ (by simp))
      obtain ⟨w, hw⟩ := Option.isSome_iff_exists.mp hS
      simp only [patchPassOne, hw, Option.isNone_some, Bool.and_false,
        Bool.false_eq_true, if_false]
      exact ih (fun q hq => h q (by simp [hq]))

theorem patchPassTwo_self (a l : List (String × Nat))
    (hnd : (a.map Prod.fst).Nodup) (h : ∀ p ∈ l, p ∈ a) :
    patchPassTwo a l = [] := by
  induction l with
  | nil => rfl
  | cons p rest ih =>
      obtain ⟨k, v⟩ := p
      have hL := lookup_eq_of_nodup a k v hnd (h _ (by simp))
      have hcond : (decide (¬ a.lookup k = some v)) = false := by
        simp [hL]
      simp only [patchPassTwo, ne_eq, hcond, Bool.and_false,
        Bool.false_eq_true, if_false]
      exact ih (fun q hq => h q (by simp [hq]))

/-- The prop diff of identical props (keys distinct) is empty. -/
theorem patchDom_self (a : List (String × Nat))
    (hnd : (a.map Prod.fst).Nodup) : patchDom a a = [] := by
  unfold patchDom
  rw [patchPassOne_self a a (fun p hp => hp),
    patchPassTwo_self a a hnd (fun p hp => hp)]
  rfl

/-- Claim C8 counterexample: re-rendering an identical description list
whose two children share key "a" produces a Placement on the second
pass — the overwritten key-map entry makes the second lookup miss. -/
theorem c8_counterexample :
    ((reconcileChildren
        (mountOlds 0 [⟨"li", some "a", []⟩, ⟨"li", some "a", []⟩])
        [⟨"li", some "a", []⟩, ⟨"li", some "a", []⟩]).1.map
          NewFiber.effectTag) = [Tag.update, Tag.placement] := by
  decide

/-- Claim C8 (amended: keyed children must carry pairwise-distinct keys;
with a duplicated key the identical re-render produces a Placement):
mounting a child list and re-rendering it with the identical description
yields only Update fibers, zero Deletions, zero new output nodes, and
every per-fiber prop diff is empty. -/
theorem c8_roundtrip (els : List Elem) (c c2 : Nat)
    (hk : (els.filterMap Elem.key).Nodup)
    (hattrs : ∀ el ∈ els, (el.attrs.map Prod.fst).Nodup) :
    ((workChain c (reconcileChildren [] els).1).1.map toOldFiber =
      mountOlds c els) ∧
    (∀ f ∈ (reconcileChildren (mountOlds c els) els).1,
      f.effectTag = Tag.update) ∧
    (reconcileChildren (mountOlds c els) els).2 = [] ∧
    (workChain c2 (reconcileChildren (mountOlds c els) els).1).2 = c2 ∧
    (∀ f ∈ (reconcileChildren (mountOlds c els) els).1, ∀ o,
      f.alternate = some o → patchDom o.attrs f.attrs = []) := by
  have hmk : ((mountOlds c els).filterMap OldFiber.key).Nodup := by
    rw [mountOlds_keys]
    exact hk
  have hEq : reconcileChildren (mountOlds c els) els =
      (matchedChain c els, []) := by
    rw [reconcileChildren_eq_spec _ _ hmk]
    unfold reconcileSpec
    exact specGo_mount c els
  have hEmpty : reconcileChildren [] els = (els.map placeFiber, []) := by
    rw [reconcileChildren_eq_spec [] els (by simp)]
    unfold reconcileSpec
    exact specGo_empty els
  refine ⟨?_, ?_, ?_, ?_, ?_⟩
  · rw [hEmpty]
    exact workChain_mount c els
  · rw [hEq]
    intro f hf
    exact (matchedChain_spec c els f hf).1
  · rw [hEq]
  · rw [hEq]
    exact workChain_counter_of_some c2 _
      (fun f hf => (matchedChain_spec c els f hf).2.1)
  · rw [hEq]
    intro f hf o ho
    obtain ⟨_, _, h3, h4⟩ := matchedChain_spec c els f hf
    rw [h3 o ho]
    have hnd : (f.attrs.map Prod.fst).Nodup := by
      obtain ⟨el, hel, hat⟩ := List.mem_map.mp h4
      rw [← hat]
      exact hattrs el hel
    exact patchDom_self f.attrs hnd

/-- Claim C8 witness: the amended theorem applied to a concrete mixed
keyed/unkeyed list with a prop. -/
theorem c8_roundtrip_witness :
    ((workChain 0 (reconcileChildren []
        [liA, ⟨"span", none, [("id", 3)]⟩]).1).1.map toOldFiber =
      mountOlds 0 [liA, ⟨"span", none, [("id", 3)]⟩]) ∧
    (reconcileChildren (mountOlds 0 [liA, ⟨"span", none, [("id", 3)]⟩])
        [liA, ⟨"span", none, [("id", 3)]⟩]).2 = [] ∧
    (∀ f ∈ (reconcileChildren
        (mountOlds 0 [liA, ⟨"span", none, [("id", 3)]⟩])
        [liA, ⟨"span", none, [("id", 3)]⟩]).1,
      f.effectTag = Tag.update) := by
  have h := c8_roundtrip [liA, ⟨"span", none, [("id", 3)]⟩] 0 2
    (by decide) (by decide)
  exact ⟨h.1, h.2.2.1, h.2.1⟩

/-! ### Commit ordering lemmas (claim C5) -/

/-- The deletion walk's cleanup events are cleanup invocations. -/
theorem cleanupEventsC_cleanup (f : CFiber) :
    ∀ e ∈ cleanupEventsC f, isCleanup e = true := by
  match f with
  | CFiber.node dom tag hooks effs children =>
      intro e he
      unfold cleanupEventsC at he
      rcases List.mem_append.mp he with h1 | h2
      · obtain ⟨cv, _, hc⟩ := List.mem_map.mp h1
        subst hc
        rfl
      · match children, h2 with
        | [], h2 => simp at h2
        | c :: rest, h2 => exact cleanupEventsC_cleanup c e h2

/-- Committing one deletion fires only node removals and cleanups. -/
theorem commitDeletionEv_events (f : CFiber) (p : Option Nat) :
    ∀ e ∈ commitDeletionEv f p,
      isRemove e = true ∨ isCleanup e = true := by
  intro e he
  unfold commitDeletionEv at he
  rcases List.mem_append.mp he with h1 | h2
  · cases hr : removeFiberDomC f <;> cases p <;> rw [hr] at h1 <;>
      simp only [List.not_mem_nil, List.mem_singleton] at h1
    subst h1
    exact Or.inl rfl
  · exact Or.inr (cleanupEventsC_cleanup f e h2)

mutual

/-- Walking a tree without Deletion tags fires only appends and
patches. -/
theorem commitWork_events_apply (f : CFiber) (p : Option Nat)
    (h : noDeletionTag f = true) :
    ∀ e ∈ (commitWorkEv f p).1, isApplyTag e = true := by
  match f with
  | CFiber.node dom tag hooks effs children =>
    simp only [noDeletionTag, Bool.and_eq_true, bne_iff_ne, ne_eq] at h
    intro e he
    cases tag with
    | deletion => exact absurd rfl h.1
    | placement =>
        cases dom with
        | some d =>
            cases p with
            | some q =>
                simp only [commitWorkEv] at he
                rcases List.mem_append.mp he with h1 | h2
                · rw [List.mem_singleton] at h1
                  subst h1
                  rfl
                · exact commitWorkListEv_events_apply children (some d) h.2
                    e h2
            | none =>
                simp only [commitWorkEv] at he
                rcases List.mem_append.mp he with h1 | h2
                · simp at h1
                · exact commitWorkListEv_events_apply children (some d) h.2
                    e h2
        | none =>
            simp only [commitWorkEv] at he
            rcases List.mem_append.mp he with h1 | h2
            · cases p <;> simp at h1
            · exact commitWorkListEv_events_apply children p h.2 e h2
    | update =>
        cases dom with
        | some d =>
            simp only [commitWorkEv] at he
            rcases List.mem_append.mp he with h1 | h2
            · rw [List.mem_singleton] at h1
              subst h1
              rfl
            · exact commitWorkListEv_events_apply children (some d) h.2 e h2
        | none =>
            simp only [commitWorkEv] at he
            rcases List.mem_append.mp he with h1 | h2
            · simp at h1
            · exact commitWorkListEv_events_apply children p h.2 e h2

/-- `commitWork_events_apply` over a sibling list. -/
theorem commitWorkListEv_events_apply (fs : List CFiber) (p : Option Nat)
    (h : noDeletionTagList fs = true) :
    ∀ e ∈ (commitWorkListEv fs p).1, isApplyTag e = true := by
  match fs with
  | [] =>
      intro e he
      simp [commitWorkListEv] at he
  | f :: rest =>
      simp only [noDeletionTagList, Bool.and_eq_true] at h
      intro e he
      simp only [commitWorkListEv] at he
      rcases List.mem_append.mp he with h1 | h2
      · exact commitWork_events_apply f p h.1 e h1
      · exact commitWorkListEv_events_apply rest p h.2 e h2

end

/-- A Deletion-tagged fiber's walk events are exactly the deletion
events (vertex.js lines 887–890). -/
theorem commitWorkEv_deletion_events (f : CFiber) (p : Option Nat)
    (h : tagOf f = Tag.deletion) :
    (commitWorkEv f p).1 = commitDeletionEv f p := by
  match f with
  | CFiber.node dom tag hooks effs children =>
      cases tag with
      | deletion => simp [commitWorkEv]
      | placement => simp [tagOf] at h
      | update => simp [tagOf] at h

/-- The deletion phase of `commitRoot` fires only removals and
cleanups. -/
theorem commitDeletionsPhase_events (dels : List DeletionEntry)
    (hdel : ∀ d ∈ dels, tagOf d.fiber = Tag.deletion) :
    ∀ e ∈ (commitDeletionsPhase dels).1,
      isRemove e = true ∨ isCleanup e = true := by
  induction dels with
  | nil => intro e he; simp [commitDeletionsPhase] at he
  | cons d rest ih =>
      intro e he
      simp only [commitDeletionsPhase] at he
      rcases List.mem_append.mp he with h1 | h2
      · rw [commitWorkEv_deletion_events d.fiber _ (hdel d (by simp))] at h1
        exact commitDeletionEv_events d.fiber _ e h1
      · exact ih (fun q hq => hdel q (by simp [hq])) e h2

/-- The effect flush fires only cleanups and effect bodies. -/
theorem effectPhase_events (items : List EffItem) :
    ∀ e ∈ effectPhase items,
      isCleanup e = true ∨ isRunEffect e = true := by
  induction items with
  | nil => intro e he; simp [effectPhase] at he
  | cons it rest ih =>
      intro e he
      simp only [effectPhase] at he
      rcases List.mem_append.mp he with h1 | h2
      · cases hc : it.oldCleanup with
        | none => rw [hc] at h1; simp at h1
        | some cv =>
            rw [hc] at h1
            simp only [List.mem_singleton] at h1
            subst h1
            exact Or.inl rfl
      · rcases List.mem_cons.mp h2 with h3 | h4
        · subst h3
          exact Or.inr rfl
        · exact ih e h4

/-- Every queued effect runs, and when it carries a previous cleanup
handle, that cleanup runs immediately before it. -/
theorem effectPhase_runs (items : List EffItem) :
    ∀ it ∈ items,
      CEvent.runEffect it.effectId ∈ effectPhase items ∧
      (∀ cv, it.oldCleanup = some cv →
        ([CEvent.runCleanup cv, CEvent.runEffect it.effectId]).IsInfix
          (effectPhase items)) := by
  induction items with
  | nil => intro it hit; cases hit
  | cons it0 rest ih =>
      intro it hit
      rcases List.mem_cons.mp hit with he | hm
      · subst he
        constructor
        · simp [effectPhase]
        · intro cv hcv
          refine ⟨[], effectPhase rest, ?_⟩
          unfold effectPhase
          rw [hcv]
          simp
          cases rest <;> rfl
      · have hr := ih it hm
        constructor
        · simp only [effectPhase, List.mem_append, List.mem_cons]
          exact Or.inr (Or.inr hr.1)
        · intro cv hcv
          have hinf := hr.2 cv hcv
          have hsub : (effectPhase rest).IsInfix (effectPhase (it0 :: rest)) := by
            refine ⟨(match it0.oldCleanup with
              | some c => [CEvent.runCleanup c]
              | none => []) ++ [CEvent.runEffect it0.effectId], [], ?_⟩
            unfold effectPhase
            simp
            cases rest <;> rfl
          exact hinf.trans hsub

theorem effectPhaseHooks_map (effRet : Nat → Option Nat)
    (items : List EffItem) :
    effectPhaseHooks effRet items =
      items.map (fun it => effRet it.effectId) := by
  induction items with
  | nil => rfl
  | cons it rest ih => simp [effectPhaseHooks, ih]

/-- Claim C5: the commit pass applies all pending Deletions first (each
against its own nearest live parent, firing only removals and cleanups),
then walks the new tree applying only Placement appends and Update
patches, then swaps the roots, and only then runs the queued effects —
each queued effect runs, immediately preceded by its previous cleanup
handle when it has one, and each effect's returned cleanup handle is
stored back per hook cell. -/
theorem c5_commit_order (dels : List DeletionEntry)
    (rootChild : Option CFiber) (rootDom : Nat)
    (effRet : Nat → Option Nat)
    (hdel : ∀ d ∈ dels, tagOf d.fiber = Tag.deletion)
    (hroot : ∀ f, rootChild = some f → noDeletionTag f = true) :
    ∃ A B C, commitRoot dels rootChild rootDom =
        (A ++ B) ++ CEvent.swapRoots :: C ∧
      (∀ e ∈ A, isRemove e = true ∨ isCleanup e = true) ∧
      (∀ e ∈ B, isApplyTag e = true) ∧
      (∀ e ∈ C, isCleanup e = true ∨ isRunEffect e = true) ∧
      (commitRoot dels rootChild rootDom).count CEvent.swapRoots = 1 ∧
      (∀ it ∈ (commitDeletionsPhase dels).2 ++
          (commitWalk rootChild rootDom).2,
        CEvent.runEffect it.effectId ∈ C ∧
        (∀ cv, it.oldCleanup = some cv →
          ([CEvent.runCleanup cv, CEvent.runEffect it.effectId]).IsInfix
            C)) ∧
      effectPhaseHooks effRet ((commitDeletionsPhase dels).2 ++
          (commitWalk rootChild rootDom).2) =
        ((commitDeletionsPhase dels).2 ++
          (commitWalk rootChild rootDom).2).map
            (fun it => effRet it.effectId) := by
  have hB : ∀ e ∈ (commitWalk rootChild rootDom).1,
      isApplyTag e = true := by
    cases hc : rootChild with
    | none => intro e he; simp [commitWalk] at he
    | some f =>
        intro e he
        simp only [commitWalk] at he
        exact commitWork_events_apply f (some rootDom) (hroot f hc) e he
  have hA := commitDeletionsPhase_events dels hdel
  have hC := effectPhase_events ((commitDeletionsPhase dels).2 ++
    (commitWalk rootChild rootDom).2)
  have hshape : commitRoot dels rootChild rootDom =
      ((commitDeletionsPhase dels).1 ++ (commitWalk rootChild rootDom).1) ++
        CEvent.swapRoots :: effectPhase ((commitDeletionsPhase dels).2 ++
          (commitWalk rootChild rootDom).2) := by
    simp [commitRoot, List.append_assoc]
  refine ⟨(commitDeletionsPhase dels).1, (commitWalk rootChild rootDom).1,
    effectPhase ((commitDeletionsPhase dels).2 ++
      (commitWalk rootChild rootDom).2), hshape, hA, hB, hC, ?_, ?_, ?_⟩
  · rw [hshape]
    have cA : ((commitDeletionsPhase dels).1).count CEvent.swapRoots = 0 := by
      rw [List.count_eq_zero]
      intro hmem
      rcases hA CEvent.swapRoots hmem with h1 | h1 <;> simp [isRemove, isCleanup] at h1
    have cB : ((commitWalk rootChild rootDom).1).count CEvent.swapRoots = 0 := by
      rw [List.count_eq_zero]
      intro hmem
      have := hB CEvent.swapRoots hmem
      simp [isApplyTag] at this
    have cC : (effectPhase ((commitDeletionsPhase dels).2 ++
        (commitWalk rootChild rootDom).2)).count CEvent.swapRoots = 0 := by
      rw [List.count_eq_zero]
      intro hmem
      rcases hC CEvent.swapRoots hmem with h1 | h1 <;>
        simp [isCleanup, isRunEffect] at h1
    simp [List.count_append, List.count_cons, cA, cB, cC]
  · intro it hit
    exact effectPhase_runs _ it hit
  · exact effectPhaseHooks_map effRet _

/-- Claim C5 witness: the theorem applied to a concrete commit with one
pending deletion (cleanup 7), a placed host node, an updated
function-component fiber, and three queued effects. -/
theorem c5_commit_order_witness :
    ∃ A B C, commitRoot c5Dels (some c5Root) 0 =
        (A ++ B) ++ CEvent.swapRoots :: C ∧
      (∀ e ∈ A, isRemove e = true ∨ isCleanup e = true) ∧
      (∀ e ∈ B, isApplyTag e = true) ∧
      (∀ e ∈ C, isCleanup e = true ∨ isRunEffect e = true) ∧
      (commitRoot c5Dels (some c5Root) 0).count CEvent.swapRoots = 1 := by
  obtain ⟨A, B, C, h1, h2, h3, h4, h5, _⟩ :=
    c5_commit_order c5Dels (some c5Root) 0 (fun _ => some 20)
      (by
        intro d hd
        simp only [c5Dels, List.mem_singleton] at hd
        subst hd
        rfl)
      (by
        intro f hf
        cases hf
        simp [c5Root, noDeletionTag, noDeletionTagList])
  exact ⟨A, B, C, h1, h2, h3, h4, h5⟩

end Vertex
